import Mathlib

/-!
Verification development for the flow-execution engine of the Clara app
runner (node/edge graphs, wave-based execution plans, per-node executors,
runtime-input overlay, and the Ollama client configuration accessor).

The TypeScript sources are embedded shallowly:

* JavaScript runtime values that flow between nodes are modelled by
  `JSValue`, with JS truthiness (`jsTruthy`) and `JSON.stringify`
  (`jsonStringify`).
* The `imageDescriptionOutputNode` executor
  (`executeImageDescriptionOutput`) is translated line by line from
  `ImageDescriptionOutputNode` source: alias chain
  `inputs.text || inputs['text-in'] || inputs.default || ''`, string
  passthrough / JSON serialisation, and the optional
  `updateNodeOutput(node.id, output)` callback.
* The runtime-input overlay built in `AppRunner.runApp`
  (`nodesWithInputs`) is translated from the object-spread code.
* The plan builder `generateExecutionPlan` and the flow executor
  `executeFlow` are not part of the source tree studied here (only their
  call sites are), so they are modelled from the specification: wave
  extraction by in-degree, cycle reporting, dependency-gated execution,
  failure propagation to dependents, and first-failure run outcomes.
* `OllamaClient.getConfig` returns a shallow copy of the configuration;
  aliasing is made observable through a small explicit heap model.
-/

/-- JavaScript runtime values passed between node executors. -/
inductive JSValue where
  | vStr (s : String)
  | vNum (n : Int)
  | vBool (b : Bool)
  | vNull
  | vArr (xs : List JSValue)
  | vObj (fields : List (String × JSValue))

/-- JS truthiness: empty string, zero, `false` and `null` are falsy;
arrays and objects are always truthy. -/
def jsTruthy : JSValue → Bool
  | .vStr s => !(s == "")
  | .vNum n => !(n == 0)
  | .vBool b => b
  | .vNull => false
  | .vArr _ => true
  | .vObj _ => true

/-- Escaping of quote and backslash as done by `JSON.stringify` on strings. -/
def jsonEscape (s : String) : String :=
  s.foldl (fun acc c =>
    acc ++ (if c = '"' then "\\\"" else if c = '\\' then "\\\\" else String.singleton c)) ""

mutual

/-- Model of `JSON.stringify` on `JSValue`. -/
def jsonStringify : JSValue → String
  | .vStr s => "\"" ++ jsonEscape s ++ "\""
  | .vNum n => toString n
  | .vBool true => "true"
  | .vBool false => "false"
  | .vNull => "null"
  | .vArr xs => "[" ++ jsonStringifyArr xs ++ "]"
  | .vObj fs => "\x7b" ++ jsonStringifyObj fs ++ "\x7d"

/-- Comma-separated serialisation of array elements. -/
def jsonStringifyArr : List JSValue → String
  | [] => ""
  | [x] => jsonStringify x
  | x :: y :: xs => jsonStringify x ++ "," ++ jsonStringifyArr (y :: xs)

/-- Comma-separated serialisation of object fields. -/
def jsonStringifyObj : List (String × JSValue) → String
  | [] => ""
  | [(k, v)] => "\"" ++ jsonEscape k ++ "\":" ++ jsonStringify v
  | (k, v) :: f :: fs =>
      "\"" ++ jsonEscape k ++ "\":" ++ jsonStringify v ++ "," ++ jsonStringifyObj (f :: fs)

end

/-- The `inputs` map handed to a node executor: target-port key to value. -/
def InputMap := List (String × JSValue)

/-- Property access `inputs[k]`; `none` models JS `undefined`. -/
def jsLookup (m : List (String × JSValue)) (k : String) : Option JSValue :=
  (m.find? (fun p => p.1 == k)).map (·.2)

/-- One step of the JS `||` operator against an absent-or-present
left operand: an absent (`undefined`) or falsy value falls through. -/
def jsOrV (a : Option JSValue) (b : JSValue) : JSValue :=
  match a with
  | some v => if jsTruthy v then v else b
  | none => b

/-- The chain `inputs.text || inputs['text-in'] || inputs.default || ''` from
the `imageDescriptionOutputNode` executor. -/
def resolveAliasInput (inputs : InputMap) : JSValue :=
  jsOrV (jsLookup inputs "text")
    (jsOrV (jsLookup inputs "text-in")
      (jsOrV (jsLookup inputs "default") (.vStr "")))

/-- The conversion `typeof input === 'string' ? input : JSON.stringify(input)`. -/
def jsToOutputString (v : JSValue) : String :=
  match v with
  | .vStr s => s
  | v => jsonStringify v

/-- The `imageDescriptionOutputNode` executor: resolves the aliased text
input, converts it to a string, fires the optional `updateNodeOutput`
callback with `(node.id, output)`, and returns the output.  The second
component records the callback invocations `(nodeId, output)` made when
`updateNodeOutput` is provided (`hasCallback = true`). -/
def executeImageDescriptionOutput (nodeId : String) (inputs : InputMap)
    (hasCallback : Bool) : String × List (String × String) :=
  let input := resolveAliasInput inputs
  let output := jsToOutputString input
  (output, if hasCallback then [(nodeId, output)] else [])

/-- The alias chain exactly as the claim under study words it: the value
under `"text"` if that key is present, otherwise the value under
`"text-in"`, otherwise the value under `"default"`, otherwise the empty
string.  (Presence-based, ignoring truthiness.) -/
def claimPresenceResolve (inputs : InputMap) : JSValue :=
  match jsLookup inputs "text" with
  | some v => v
  | none =>
    match jsLookup inputs "text-in" with
    | some v => v
    | none => (jsLookup inputs "default").getD (.vStr "")

/-- First truthy value bound to one of the listed alias keys. -/
def firstTruthyAlias (inputs : InputMap) (keys : List String) : Option JSValue :=
  keys.findSome? (fun k =>
    match jsLookup inputs k with
    | some v => if jsTruthy v then some v else none
    | none => none)

/-- Node payload: display label and opaque configuration map
(`node.data.label`, `node.data.config`). -/
structure NodeData where
  label : Option String
  config : List (String × JSValue)

/-- A graph node: unique id, type tag selecting an executor, payload. -/
structure NodeT where
  id : String
  type : String
  data : NodeData

/-- A directed edge with optional port names (reactflow shape). -/
structure EdgeT where
  source : String
  target : String
  sourceHandle : Option String
  targetHandle : Option String
deriving DecidableEq

/-- JS object spread `{...m, k: v}`: an existing key keeps its position
but receives the new value; a new key is appended. -/
def setKey (m : List (String × JSValue)) (k : String) (v : JSValue) :
    List (String × JSValue) :=
  if m.any (fun p => p.1 == k) then
    m.map (fun p => if p.1 == k then (k, v) else p)
  else m ++ [(k, v)]

/-- The per-node overlay from `AppRunner.runApp`: when the runtime input
state has an entry for the node id, rebuild the node with
`inputText`/`imageData` merged into its config (by object spread),
otherwise return the node unchanged. -/
def overlayNode (inputState : List (String × JSValue)) (node : NodeT) : NodeT :=
  match jsLookup inputState node.id with
  | none => node
  | some v =>
      let c1 := if node.type == "textInputNode"
        then setKey node.data.config "inputText" v else node.data.config
      let c2 := if node.type == "imageInputNode"
        then setKey c1 "imageData" v else c1
      { node with data := { node.data with config := c2 } }

/-- The `nodesWithInputs` construction from `AppRunner.runApp`: map the overlay over the
stored node array, producing a fresh effective snapshot. -/
def nodesWithInputs (nodes : List NodeT) (inputState : List (String × JSValue)) :
    List NodeT :=
  nodes.map (overlayNode inputState)

/-- Dependency relation of a graph: `edgeRel edges a b` holds when some
edge runs from `a` to `b` (so `b` depends on `a`). -/
def edgeRel (edges : List EdgeT) (a b : String) : Prop :=
  ∃ e ∈ edges, e.source = a ∧ e.target = b

/-- Whether `n` currently has nonzero in-degree: some edge targets `n`
from a source still in `remaining`. -/
def hasIncomingFrom (edges : List EdgeT) (remaining : List String) (n : String) : Bool :=
  edges.any (fun e => e.target == n && remaining.contains e.source)

/-- Modelled from the spec: one wave of the plan builder — all remaining
nodes whose in-degree (counted over edges from still-remaining sources)
is zero, in original input order. -/
def nextWave (edges : List EdgeT) (remaining : List String) : List String :=
  remaining.filter (fun n => !(hasIncomingFrom edges remaining n))

/-- Modelled from the spec: the wave-extraction loop of the plan builder.
Repeatedly extract the zero-in-degree wave; if nodes remain but no wave
can be formed, fail with the remaining ids as the cycle witness set.
`fuel` bounds the iteration count (each successful round removes at
least one node, so `fuel = |remaining|` suffices). -/
def wavesAux (edges : List EdgeT) : Nat → List String → Except (List String) (List (List String))
  | 0, rem => if rem.isEmpty then .ok [] else .error rem
  | fuel + 1, rem =>
      if rem.isEmpty then .ok []
      else if (nextWave edges rem).isEmpty then .error rem
      else
        match wavesAux edges fuel (rem.filter (fun n => !((nextWave edges rem).contains n))) with
        | .ok rest => .ok (nextWave edges rem :: rest)
        | .error c => .error c

/-- Modelled from the spec: `generateExecutionPlan` (the Plan Builder,
`buildPlan`).  Succeeds with the staged wave plan, or fails with
`CycleDetected` carrying the remaining node ids. -/
def generateExecutionPlan (nodes : List NodeT) (edges : List EdgeT) :
    Except (List String) (List (List String)) :=
  wavesAux edges nodes.length (nodes.map NodeT.id)

/-- Index of the wave containing `n` (a node's position in the staged
execution plan). -/
def waveIdx (n : String) : List (List String) → Option Nat
  | [] => none
  | w :: ws => if w.contains n then some 0 else (waveIdx n ws).map (· + 1)

/-- Per-node run state recorded in the Run State map. -/
inductive NodeState where
  | succeeded (v : String)
  | failed (e : String)
  | skipped
deriving DecidableEq

/-- Lookup of a node's recorded state. -/
def stateOf (states : List (String × NodeState)) (n : String) : Option NodeState :=
  (states.find? (fun p => p.1 == n)).map (·.2)

/-- Modelled from the spec: a node may enter `Running` only when every
node it depends on has reached `Succeeded`. -/
def depsOk (edges : List EdgeT) (states : List (String × NodeState)) (n : String) : Bool :=
  edges.all (fun e =>
    (!(e.target == n)) ||
      (match stateOf states e.source with
       | some (.succeeded _) => true
       | _ => false))

/-- Modelled from the spec: the state a node reaches when the executor
walk arrives at it — invoked when its dependencies succeeded (recording
the executor's success value or error), skipped otherwise. -/
def stepNode (edges : List EdgeT) (exec : String → Except String String)
    (states : List (String × NodeState)) (n : String) : NodeState :=
  if depsOk edges states n then
    match exec n with
    | .ok v => .succeeded v
    | .error err => .failed err
  else .skipped

/-- Accumulated observable effects of a flow run: the Run State map, the
`(nodeId, result)` update-callback invocations, and the node ids whose
executor was actually invoked. -/
structure RunAcc where
  states : List (String × NodeState)
  calls : List (String × String)
  invoked : List String

/-- Modelled from the spec: the Flow Executor walk over a linearised
plan.  Each node is processed once: its executor runs only when all
dependencies succeeded; a success records the result and immediately
publishes one `(nodeId, result)` callback; a failure records the error;
otherwise the node is skipped without invocation. -/
def runFlow (edges : List EdgeT) (exec : String → Except String String) :
    List String → RunAcc → RunAcc
  | [], acc => acc
  | n :: rest, acc =>
      let st := stepNode edges exec acc.states n
      runFlow edges exec rest
        { states := acc.states ++ [(n, st)]
          calls := acc.calls ++
            (match st with | .succeeded v => [(n, v)] | _ => [])
          invoked := acc.invoked ++
            (match st with | .skipped => [] | _ => [n]) }

/-- Modelled from the spec: `executeFlow` — run the staged plan in
dependency order starting from an empty Run State. -/
def executeFlow (edges : List EdgeT) (exec : String → Except String String)
    (plan : List (List String)) : RunAcc :=
  runFlow edges exec plan.flatten ⟨[], [], []⟩

/-- States-only denotation of the executor walk, used to reason about
`runFlow`. -/
def runStates (edges : List EdgeT) (exec : String → Except String String) :
    List String → List (String × NodeState) → List (String × NodeState)
  | [], s => s
  | n :: rest, s => runStates edges exec rest (s ++ [(n, stepNode edges exec s n)])

/-- The `(nodeId, result)` pair published for a succeeded entry. -/
def toCall (p : String × NodeState) : Option (String × String) :=
  match p.2 with
  | .succeeded v => some (p.1, v)
  | _ => none

/-- The node id of an entry whose executor was invoked. -/
def toInvoked (p : String × NodeState) : Option String :=
  match p.2 with
  | .skipped => none
  | _ => some p.1

/-- Run-level terminal outcome. -/
inductive RunOutcome where
  | completed
  | failedAt (n : String) (e : String)
deriving DecidableEq

/-- First failing node (in execution order) with its error. -/
def firstFailure (states : List (String × NodeState)) : Option (String × String) :=
  states.findSome? (fun p =>
    match p.2 with
    | .failed e => some (p.1, e)
    | _ => none)

/-- Modelled from the spec: the run is `Completed` only when nothing
failed; otherwise it is `Failed` carrying the first failing node's id
and error as the primary cause. -/
def runOutcome (states : List (String × NodeState)) : RunOutcome :=
  match firstFailure states with
  | some (n, e) => .failedAt n e
  | none => .completed

/-- The client configuration (`OpenAIConfig`). -/
structure OpenAIConfig where
  apiKey : String
  baseUrl : String
  type : String
deriving DecidableEq

/-- A tiny explicit heap of configuration objects, making JS object
identity and mutation observable. -/
structure ConfigHeap where
  cells : List (Nat × OpenAIConfig)
  next : Nat

/-- Dereference a configuration object. -/
def heapRead (h : ConfigHeap) (r : Nat) : Option OpenAIConfig :=
  (h.cells.find? (fun c => c.1 == r)).map (·.2)

/-- Mutate the object behind reference `r` in place. -/
def heapWrite (h : ConfigHeap) (r : Nat) (v : OpenAIConfig) : ConfigHeap :=
  ⟨h.cells.map (fun c => if c.1 == r then (r, v) else c), h.next⟩

/-- Allocate a fresh object holding `v`. -/
def heapAlloc (h : ConfigHeap) (v : OpenAIConfig) : Nat × ConfigHeap :=
  (h.next, ⟨(h.next, v) :: h.cells, h.next + 1⟩)

/-- All live references are below the allocation counter. -/
def HeapWF (h : ConfigHeap) : Prop :=
  ∀ p ∈ h.cells, p.1 < h.next

/-- An `OllamaClient` holds a private reference to its configuration. -/
structure OllamaClient where
  configRef : Nat

/-- The `OllamaClient` constructor: defaults `apiKey` to `''` and `type`
to `'ollama'`, stores the configuration object privately. -/
def mkOllamaClient (h : ConfigHeap) (baseUrl : String) (apiKey : Option String)
    (ctype : Option String) : OllamaClient × ConfigHeap :=
  let cfg : OpenAIConfig := ⟨apiKey.getD "", baseUrl, ctype.getD "ollama"⟩
  let rh := heapAlloc h cfg
  (⟨rh.1⟩, rh.2)

/-- Model of `OllamaClient.getConfig`: `return { ...this.config }` — allocate a
fresh shallow copy of the stored configuration and return it. -/
def getConfig (h : ConfigHeap) (c : OllamaClient) : Option (Nat × ConfigHeap) :=
  (heapRead h c.configRef).map (fun v => heapAlloc h v)

/-- Equivalence of plan-builder results: equal success/failure shape,
waves pairwise equal as multisets, cycle reports equal as multisets. -/
def PlanEquiv : Except (List String) (List (List String)) →
    Except (List String) (List (List String)) → Prop
  | .ok p, .ok q => List.Forall₂ List.Perm p q
  | .error r, .error s => List.Perm r s
  | _, _ => False

/-- The prefix-closure property of a linearised plan: every in-edge
source of a node occurs strictly before the node. -/
def EdgeBefore (edges : List EdgeT) (order : List String) : Prop :=
  ∀ (pre : List String) (n : String) (post : List String), order = pre ++ n :: post →
    ∀ e ∈ edges, e.target = n → e.source ∈ pre

/-! ### Concrete fixtures for witnesses -/

/-- A plain two-node fixture node. -/
def nodeA : NodeT := ⟨"a", "t", ⟨none, []⟩⟩

/-- A plain two-node fixture node. -/
def nodeB : NodeT := ⟨"b", "t", ⟨none, []⟩⟩

/-- Fixture edge from `a` to `b`. -/
def edgeAB : EdgeT := ⟨"a", "b", none, none⟩

/-- Fixture edge from `b` to `a`. -/
def edgeBA : EdgeT := ⟨"b", "a", none, none⟩

/-- Executor oracle that always fails. -/
def execBoom : String → Except String String := fun _ => .error "boom"

/-- Executor oracle that always succeeds with `"v"`. -/
def execOk : String → Except String String := fun _ => .ok "v"

/-! ### Generic list helpers -/

/-- Filtering drops at least the witnessing rejected element. -/
theorem length_filter_lt_of_mem {α : Type} {p : α → Bool} {l : List α} {a : α}
    (ha : a ∈ l) (hpa : p a = false) : (l.filter p).length < l.length := by
  induction l with
  | nil => cases ha
  | cons x xs ih =>
      rcases List.mem_cons.mp ha with rfl | hmem
      · rw [List.filter_cons, hpa]
        exact Nat.lt_succ_of_le (List.length_filter_le p xs)
      · rw [List.filter_cons]
        cases hpx : p x
        · exact Nat.lt_succ_of_lt (ih hmem)
        · exact Nat.succ_lt_succ (ih hmem)

/-- Unfolding association-list lookup over a cons cell. -/
theorem jsLookup_cons (k' : String) (v' : JSValue) (m : List (String × JSValue))
    (k : String) :
    jsLookup ((k', v') :: m) k = if k' == k then some v' else jsLookup m k := by
  unfold jsLookup
  rw [List.find?_cons]
  cases h : k' == k <;> simp [h]

/-- Replacing the value at key `k` in place yields `v` under key `k`. -/
theorem jsLookup_map_replace_self (m : List (String × JSValue)) (k : String) (v : JSValue)
    (h : (m.any fun p => p.1 == k) = true) :
    jsLookup (m.map (fun p => if p.1 == k then (k, v) else p)) k = some v := by
  induction m with
  | nil => simp at h
  | cons a as ih =>
      rw [List.any_cons] at h
      simp only [List.map_cons]
      cases hak : a.1 == k
      · rw [if_neg (by simp [hak]), jsLookup_cons, if_neg (by simp [hak])]
        rw [hak] at h
        exact ih (by simpa using h)
      · rw [if_pos (by simpa using hak), jsLookup_cons, if_pos (by simp)]

/-- Replacing the value at key `k` in place leaves other keys unchanged. -/
theorem jsLookup_map_replace_other (m : List (String × JSValue)) (k : String) (v : JSValue)
    (k' : String) (hk : k' ≠ k) :
    jsLookup (m.map (fun p => if p.1 == k then (k, v) else p)) k' = jsLookup m k' := by
  induction m with
  | nil => rfl
  | cons a as ih =>
      simp only [List.map_cons]
      cases hak : a.1 == k
      · rw [if_neg (by simp [hak]), jsLookup_cons, jsLookup_cons, ih]
      · rw [if_pos (by simpa using hak), jsLookup_cons, jsLookup_cons,
          if_neg (by simp; exact fun h => hk h.symm),
          if_neg (by simp at hak ⊢; rw [hak]; exact fun h => hk h.symm)]
        exact ih

/-- Lookup of the key just written by `setKey` sees the new value. -/
theorem jsLookup_setKey_self (m : List (String × JSValue)) (k : String) (v : JSValue) :
    jsLookup (setKey m k v) k = some v := by
  unfold setKey
  split
  next h => exact jsLookup_map_replace_self m k v h
  next h =>
    have hnone : List.find? (fun p => p.1 == k) m = none := by
      rw [List.find?_eq_none]
      intro x hx hbad
      exact h (List.any_eq_true.mpr ⟨x, hx, hbad⟩)
    unfold jsLookup
    rw [List.find?_append, hnone, Option.none_or]
    simp [List.find?_cons]

/-- Lookup of any other key is unchanged by `setKey`. -/
theorem jsLookup_setKey_other (m : List (String × JSValue)) (k : String) (v : JSValue)
    (k' : String) (hk : k' ≠ k) : jsLookup (setKey m k v) k' = jsLookup m k' := by
  unfold setKey
  split
  next => exact jsLookup_map_replace_other m k v k' hk
  next =>
    unfold jsLookup
    rw [List.find?_append]
    have hlast : List.find? (fun p => p.1 == k') [(k, v)] = none := by
      rw [List.find?_eq_none]
      intro x hx
      simp at hx
      subst hx
      simp
      exact fun h => hk h.symm
    rw [hlast, Option.or_none]

/-! ### Dependency-relation helpers -/

/-- Characterisation of nonzero in-degree against a remaining set. -/
theorem hasIncomingFrom_iff (edges : List EdgeT) (S : List String) (n : String) :
    hasIncomingFrom edges S n = true ↔ ∃ p ∈ S, edgeRel edges p n := by
  unfold hasIncomingFrom edgeRel
  rw [List.any_eq_true]
  constructor
  · rintro ⟨e, he, hb⟩
    rw [Bool.and_eq_true, beq_iff_eq] at hb
    exact ⟨e.source, by simpa using hb.2, e, he, rfl, hb.1⟩
  · rintro ⟨p, hp, e, he, rfl, rfl⟩
    exact ⟨e, he, by simp [hp]⟩

/-- Membership in the extracted wave. -/
theorem mem_nextWave {edges : List EdgeT} {S : List String} {n : String} :
    n ∈ nextWave edges S ↔ n ∈ S ∧ hasIncomingFrom edges S n = false := by
  unfold nextWave
  rw [List.mem_filter, Bool.not_eq_true']

/-- The target of an edge of the graph is among the graph's node ids. -/
theorem edgeRel_target_mem {edges : List EdgeT} {ids : List String}
    (hwf : ∀ e ∈ edges, e.target ∈ ids) {a b : String} (h : edgeRel edges a b) :
    b ∈ ids := by
  obtain ⟨e, he, _, rfl⟩ := h
  exact hwf e he

/-- The endpoint of a nonempty dependency path is among the node ids. -/
theorem transGen_target_mem {edges : List EdgeT} {ids : List String}
    (hwf : ∀ e ∈ edges, e.target ∈ ids) {a b : String}
    (h : Relation.TransGen (edgeRel edges) a b) : b ∈ ids := by
  cases h with
  | single h1 => exact edgeRel_target_mem hwf h1
  | tail _ h1 => exact edgeRel_target_mem hwf h1

/-- A node on a cycle has an immediate predecessor that is also on a cycle. -/
theorem cyclic_pred {edges : List EdgeT} {m : String}
    (h : Relation.TransGen (edgeRel edges) m m) :
    ∃ p, edgeRel edges p m ∧ Relation.TransGen (edgeRel edges) p p := by
  cases h with
  | single h1 => exact ⟨m, h1, .single h1⟩
  | tail htg h1 =>
      rename_i b
      exact ⟨b, h1, (Relation.TransGen.single h1).trans htg⟩

/-- A nonempty dependency path strictly increases any edge-monotone rank. -/
theorem transGen_rank_lt {edges : List EdgeT} (rank : String → Nat)
    (hr : ∀ e ∈ edges, rank e.source < rank e.target) {a b : String}
    (h : Relation.TransGen (edgeRel edges) a b) : rank a < rank b := by
  induction h with
  | single h1 =>
      obtain ⟨e, he, h2, h3⟩ := h1
      rw [← h2, ← h3]
      exact hr e he
  | tail _ h1 ih =>
      obtain ⟨e, he, h2, h3⟩ := h1
      rw [← h3]
      exact Nat.lt_trans ih (h2 ▸ hr e he)

/-- A graph whose edges all increase some rank function is acyclic. -/
theorem acyclic_of_rank (edges : List EdgeT) (rank : String → Nat)
    (hr : ∀ e ∈ edges, rank e.source < rank e.target) :
    ∀ n, ¬ Relation.TransGen (edgeRel edges) n n :=
  fun _ h => Nat.lt_irrefl _ (transGen_rank_lt rank hr h)

/-- The empty edge set is acyclic. -/
theorem acyclic_nil : ∀ n, ¬ Relation.TransGen (edgeRel []) n n :=
  acyclic_of_rank [] (fun _ => 0) (by intro e he; cases he)

/-- In an acyclic graph every nonempty finite node set has a member with
no predecessor inside the set (length-bounded auxiliary form). -/
theorem exists_no_pred_aux {edges : List EdgeT}
    (hacyc : ∀ n, ¬ Relation.TransGen (edgeRel edges) n n) :
    ∀ (k : Nat) (S : List String), S.length ≤ k → S ≠ [] →
      ∃ n ∈ S, ∀ p ∈ S, ¬ edgeRel edges p n := by
  intro k
  induction k with
  | zero =>
      intro S hle hne
      cases S with
      | nil => exact absurd rfl hne
      | cons a t => simp at hle
  | succ k ih =>
      intro S hle hne
      obtain ⟨n, hn⟩ := List.exists_mem_of_ne_nil S hne
      by_cases hall : ∀ p ∈ S, ¬ edgeRel edges p n
      · exact ⟨n, hn, hall⟩
      · push_neg at hall
        obtain ⟨p, hpS, hpe⟩ := hall
        classical
        have hnS'f :
            (fun x => decide (x = p ∨ Relation.TransGen (edgeRel edges) x p)) n = false := by
          apply decide_eq_false
          rintro (rfl | htg)
          · exact hacyc n (Relation.TransGen.single hpe)
          · exact hacyc n (htg.tail hpe)
        have hlt := @length_filter_lt_of_mem String
          (fun x => decide (x = p ∨ Relation.TransGen (edgeRel edges) x p)) S n hn hnS'f
        obtain ⟨m, hmS', hmin⟩ :=
          ih (S.filter (fun x => decide (x = p ∨ Relation.TransGen (edgeRel edges) x p)))
            (by omega)
            (List.ne_nil_of_mem
              (List.mem_filter.mpr ⟨hpS, decide_eq_true (Or.inl rfl)⟩))
        have hmS : m ∈ S := (List.mem_filter.mp hmS').1
        refine ⟨m, hmS, ?_⟩
        intro q hqS hqe
        have hm := (List.mem_filter.mp hmS').2
        rw [decide_eq_true_eq] at hm
        have hqp : Relation.TransGen (edgeRel edges) q p := by
          rcases hm with rfl | htg
          · exact Relation.TransGen.single hqe
          · exact Relation.TransGen.head hqe htg
        exact hmin q (List.mem_filter.mpr ⟨hqS, decide_eq_true (Or.inr hqp)⟩) hqe

/-- In an acyclic graph every nonempty finite node set has a member with
no predecessor inside the set. -/
theorem exists_no_pred {edges : List EdgeT}
    (hacyc : ∀ n, ¬ Relation.TransGen (edgeRel edges) n n)
    (S : List String) (hne : S ≠ []) :
    ∃ n ∈ S, ∀ p ∈ S, ¬ edgeRel edges p n :=
  exists_no_pred_aux hacyc S.length S le_rfl hne

/-! ### Plan-builder lemmas -/

/-- Boolean membership bridge for string lists. -/
theorem strContains_iff {l : List String} {a : String} : l.contains a = true ↔ a ∈ l := by
  simp

/-- On acyclic graphs the wave loop never gets stuck: it produces a plan. -/
theorem wavesAux_ok_of_acyclic {edges : List EdgeT}
    (hacyc : ∀ n, ¬ Relation.TransGen (edgeRel edges) n n) :
    ∀ (fuel : Nat) (S : List String), S.length ≤ fuel →
      ∃ plan, wavesAux edges fuel S = .ok plan := by
  intro fuel
  induction fuel with
  | zero =>
      intro S hle
      have hS : S = [] := List.length_eq_zero.mp (Nat.le_zero.mp hle)
      subst hS
      exact ⟨[], rfl⟩
  | succ k ih =>
      intro S hle
      by_cases hS : S = []
      · subst hS
        exact ⟨[], by unfold wavesAux; rfl⟩
      · obtain ⟨n, hnS, hnp⟩ := exists_no_pred hacyc S hS
        have hwave : n ∈ nextWave edges S := by
          rw [mem_nextWave]
          refine ⟨hnS, ?_⟩
          rw [Bool.eq_false_iff]
          rw [Ne, hasIncomingFrom_iff]
          rintro ⟨p, hp, hpe⟩
          exact hnp p hp hpe
        have hwne : ¬ (nextWave edges S).isEmpty = true := by
          rw [List.isEmpty_iff]
          exact List.ne_nil_of_mem hwave
        have hlt : (S.filter (fun x => !((nextWave edges S).contains x))).length < S.length :=
          @length_filter_lt_of_mem String (fun x => !((nextWave edges S).contains x)) S n hnS
            (by rw [Bool.not_eq_false', strContains_iff]; exact hwave)
        obtain ⟨rest, hrest⟩ :=
          ih (S.filter (fun x => !((nextWave edges S).contains x))) (by omega)
        refine ⟨nextWave edges S :: rest, ?_⟩
        unfold wavesAux
        rw [if_neg (by rw [List.isEmpty_iff]; exact hS), if_neg hwne, hrest]

/-- Wave index of a member of the head wave. -/
theorem waveIdx_cons_mem {n : String} {w : List String} {ws : List (List String)}
    (h : n ∈ w) : waveIdx n (w :: ws) = some 0 := by
  simp [waveIdx, h]

/-- Wave index of a node outside the head wave. -/
theorem waveIdx_cons_not_mem {n : String} {w : List String} {ws : List (List String)}
    (h : n ∉ w) : waveIdx n (w :: ws) = (waveIdx n ws).map (· + 1) := by
  simp [waveIdx, h]

/-- Boolean-negative membership bridge for string lists. -/
theorem not_mem_of_contains_false {l : List String} {a : String}
    (h : l.contains a = false) : a ∉ l := by
  intro hm
  rw [strContains_iff.mpr hm] at h
  cases h

/-- Soundness of the produced plan: every node of the input set gets a
wave index, and along every edge inside the set the source's wave index
is strictly smaller than the target's. -/
theorem wavesAux_sound {edges : List EdgeT} :
    ∀ (fuel : Nat) (S : List String) (plan : List (List String)),
      wavesAux edges fuel S = .ok plan →
      (∀ n ∈ S, ∃ i, waveIdx n plan = some i) ∧
      (∀ e ∈ edges, e.source ∈ S → e.target ∈ S →
        ∃ i j, waveIdx e.source plan = some i ∧ waveIdx e.target plan = some j ∧ i < j) := by
  intro fuel
  induction fuel with
  | zero =>
      intro S plan h
      unfold wavesAux at h
      by_cases hS : S = []
      · subst hS
        constructor
        · intro n hn; cases hn
        · intro e _ hs _; cases hs
      · rw [if_neg (by rw [List.isEmpty_iff]; exact hS)] at h
        cases h
  | succ k ih =>
      intro S plan h
      unfold wavesAux at h
      by_cases hS : S = []
      · subst hS
        constructor
        · intro n hn; cases hn
        · intro e _ hs _; cases hs
      · rw [if_neg (by rw [List.isEmpty_iff]; exact hS)] at h
        by_cases hw : (nextWave edges S).isEmpty
        · rw [if_pos hw] at h; cases h
        · rw [if_neg hw] at h
          rcases hrec : wavesAux edges k (S.filter (fun n => !((nextWave edges S).contains n)))
            with c | rest
          · rw [hrec] at h; cases h
          · rw [hrec] at h
            obtain rfl : nextWave edges S :: rest = plan := by
              cases h; rfl
            obtain ⟨ihmem, ihedge⟩ := ih _ rest hrec
            constructor
            · intro n hnS
              cases hnw : (nextWave edges S).contains n
              · have hnS' : n ∈ S.filter (fun x => !((nextWave edges S).contains x)) :=
                  List.mem_filter.mpr ⟨hnS, by rw [hnw]; rfl⟩
                obtain ⟨i, hi⟩ := ihmem n hnS'
                refine ⟨i + 1, ?_⟩
                rw [waveIdx_cons_not_mem (not_mem_of_contains_false hnw), hi]
                rfl
              · exact ⟨0, waveIdx_cons_mem (strContains_iff.mp hnw)⟩
            · intro e he hs ht
              have htw : (nextWave edges S).contains e.target = false := by
                rw [Bool.eq_false_iff, Ne, strContains_iff, mem_nextWave]
                rintro ⟨-, h2⟩
                have h3 : hasIncomingFrom edges S e.target = true :=
                  (hasIncomingFrom_iff _ _ _).mpr ⟨e.source, hs, e, he, rfl, rfl⟩
                rw [h2] at h3
                cases h3
              have htS' : e.target ∈ S.filter (fun x => !((nextWave edges S).contains x)) :=
                List.mem_filter.mpr ⟨ht, by rw [htw]; rfl⟩
              obtain ⟨j, hj⟩ := ihmem e.target htS'
              cases hsw : (nextWave edges S).contains e.source
              · have hsS' : e.source ∈ S.filter (fun x => !((nextWave edges S).contains x)) :=
                  List.mem_filter.mpr ⟨hs, by rw [hsw]; rfl⟩
                obtain ⟨i, j', hi, hj', hij⟩ := ihedge e he hsS' htS'
                refine ⟨i + 1, j' + 1, ?_, ?_, Nat.succ_lt_succ hij⟩
                · rw [waveIdx_cons_not_mem (not_mem_of_contains_false hsw), hi]
                  rfl
                · rw [waveIdx_cons_not_mem (not_mem_of_contains_false htw), hj']
                  rfl
              · refine ⟨0, j + 1, waveIdx_cons_mem (strContains_iff.mp hsw), ?_, Nat.succ_pos j⟩
                rw [waveIdx_cons_not_mem (not_mem_of_contains_false htw), hj]
                rfl

/-- The flattened plan is a permutation of the input node set. -/
theorem wavesAux_flatten_perm {edges : List EdgeT} :
    ∀ (fuel : Nat) (S : List String) (plan : List (List String)),
      wavesAux edges fuel S = .ok plan → List.Perm plan.flatten S := by
  intro fuel
  induction fuel with
  | zero =>
      intro S plan h
      unfold wavesAux at h
      by_cases hS : S = []
      · subst hS
        simp only [List.isEmpty_nil, if_true] at h
        cases h
        exact List.Perm.refl _
      · rw [if_neg (by rw [List.isEmpty_iff]; exact hS)] at h
        cases h
  | succ k ih =>
      intro S plan h
      unfold wavesAux at h
      by_cases hS : S = []
      · subst hS
        simp only [List.isEmpty_nil, if_true] at h
        cases h
        exact List.Perm.refl _
      · rw [if_neg (by rw [List.isEmpty_iff]; exact hS)] at h
        by_cases hw : (nextWave edges S).isEmpty
        · rw [if_pos hw] at h; cases h
        · rw [if_neg hw] at h
          rcases hrec : wavesAux edges k (S.filter (fun n => !((nextWave edges S).contains n)))
            with c | rest
          · rw [hrec] at h; cases h
          · rw [hrec] at h
            obtain rfl : nextWave edges S :: rest = plan := by cases h; rfl
            have ihp := ih _ rest hrec
            have hcongr : S.filter (fun n => !((nextWave edges S).contains n)) =
                S.filter (fun n => !(!(hasIncomingFrom edges S n))) := by
              apply List.filter_congr
              intro x hx
              cases hh : hasIncomingFrom edges S x
              · have hmem : x ∈ nextWave edges S := mem_nextWave.mpr ⟨hx, hh⟩
                rw [strContains_iff.mpr hmem]
                rfl
              · have hnm : x ∉ nextWave edges S := by
                  intro hmem
                  rw [mem_nextWave] at hmem
                  rw [hmem.2] at hh
                  cases hh
                have hcf : (nextWave edges S).contains x = false := by
                  rw [Bool.eq_false_iff, Ne, strContains_iff]
                  exact hnm
                rw [hcf]
                rfl
            show List.Perm (nextWave edges S ++ rest.flatten) S
            refine List.Perm.trans (List.Perm.append_left (nextWave edges S) ihp) ?_
            rw [hcongr]
            exact List.filter_append_perm _ S

/-- On graphs containing a cycle the wave loop always reports a cycle,
and every node lying on a cycle is among the reported ids. -/
theorem wavesAux_cyclic {edges : List EdgeT} :
    ∀ (fuel : Nat) (S : List String),
      (∀ m, Relation.TransGen (edgeRel edges) m m → m ∈ S) →
      (∃ n, Relation.TransGen (edgeRel edges) n n) →
      ∃ rem, wavesAux edges fuel S = .error rem ∧
        ∀ m, Relation.TransGen (edgeRel edges) m m → m ∈ rem := by
  intro fuel
  induction fuel with
  | zero =>
      intro S hinv hex
      obtain ⟨n0, hn0⟩ := hex
      have hne : S ≠ [] := List.ne_nil_of_mem (hinv n0 hn0)
      exact ⟨S, by unfold wavesAux; rw [if_neg (by rw [List.isEmpty_iff]; exact hne)], hinv⟩
  | succ k ih =>
      intro S hinv hex
      obtain ⟨n0, hn0⟩ := hex
      have hne : S ≠ [] := List.ne_nil_of_mem (hinv n0 hn0)
      have hnotwave : ∀ m, Relation.TransGen (edgeRel edges) m m →
          (nextWave edges S).contains m = false := by
        intro m hm
        obtain ⟨p, hpe, hpc⟩ := cyclic_pred hm
        rw [Bool.eq_false_iff, Ne, strContains_iff, mem_nextWave]
        rintro ⟨-, h2⟩
        have h3 : hasIncomingFrom edges S m = true :=
          (hasIncomingFrom_iff _ _ _).mpr ⟨p, hinv p hpc, hpe⟩
        rw [h2] at h3
        cases h3
      by_cases hw : (nextWave edges S).isEmpty
      · exact ⟨S, by
          unfold wavesAux
          rw [if_neg (by rw [List.isEmpty_iff]; exact hne), if_pos hw], hinv⟩
      · have hinv' : ∀ m, Relation.TransGen (edgeRel edges) m m →
            m ∈ S.filter (fun x => !((nextWave edges S).contains x)) :=
          fun m hm => List.mem_filter.mpr ⟨hinv m hm, by rw [hnotwave m hm]; rfl⟩
        obtain ⟨rem, hrem, hreminv⟩ := ih _ hinv' ⟨n0, hn0⟩
        exact ⟨rem, by
          unfold wavesAux
          rw [if_neg (by rw [List.isEmpty_iff]; exact hne), if_neg hw, hrem], hreminv⟩

/-! ### Plan order and flattened order -/

/-- Splitting an append at an element that cannot lie in the first part. -/
theorem append_split_of_not_mem {w X pre post : List String} {y : String}
    (h : w ++ X = pre ++ y :: post) (hy : y ∉ w) :
    ∃ pre', pre = w ++ pre' ∧ X = pre' ++ y :: post := by
  induction w generalizing pre with
  | nil => exact ⟨pre, rfl, h⟩
  | cons a w' ih =>
      cases pre with
      | nil =>
          rw [List.nil_append] at h
          injection h with h1 h2
          exact absurd (h1 ▸ List.mem_cons_self a w') hy
      | cons b pre₁ =>
          rw [List.cons_append] at h
          injection h with h1 h2
          subst h1
          have hy' : y ∉ w' := fun hm => hy (List.mem_cons_of_mem a hm)
          obtain ⟨pre', hp, hX⟩ := ih h2 hy'
          exact ⟨pre', by rw [hp, List.cons_append], hX⟩

/-- In the flattened plan, a node of a strictly earlier wave occurs in
every prefix preceding an occurrence of a later-wave node. -/
theorem waveIdx_lt_mem_prefix :
    ∀ (plan : List (List String)) (x y : String) (i j : Nat) (pre post : List String),
      waveIdx x plan = some i → waveIdx y plan = some j → i < j →
      plan.flatten = pre ++ y :: post → x ∈ pre := by
  intro plan
  induction plan with
  | nil =>
      intro x y i j pre post hx
      simp [waveIdx] at hx
  | cons w ws ih =>
      intro x y i j pre post hx hy hij hflat
      by_cases hyw : y ∈ w
      · rw [waveIdx_cons_mem hyw] at hy
        cases hy
        exact absurd hij (Nat.not_lt_zero i)
      · rw [waveIdx_cons_not_mem hyw] at hy
        rcases hmap : waveIdx y ws with _ | j'
        · rw [hmap] at hy; cases hy
        · rw [hmap] at hy
          have hj : j = j' + 1 := by
            simp at hy
            omega
          rw [List.flatten_cons] at hflat
          obtain ⟨pre', hp, hX⟩ := append_split_of_not_mem hflat hyw
          by_cases hxw : x ∈ w
          · rw [hp]
            exact List.mem_append_left _ hxw
          · rw [waveIdx_cons_not_mem hxw] at hx
            rcases hmap2 : waveIdx x ws with _ | i'
            · rw [hmap2] at hx; cases hx
            · rw [hmap2] at hx
              have hi : i = i' + 1 := by
                simp at hx
                omega
              have hxpre : x ∈ pre' := ih x y i' j' pre' post hmap2 hmap (by omega) hX
              rw [hp]
              exact List.mem_append_right _ hxpre

/-! ### Permutation invariance of the plan builder -/

/-- Boolean `any` only depends on the multiset of elements. -/
theorem perm_any {α : Type} {l l' : List α} (h : List.Perm l l') (f : α → Bool) :
    l.any f = l'.any f := by
  induction h with
  | nil => rfl
  | cons x _ ih => simp [List.any_cons, ih]
  | swap x y l =>
      simp [List.any_cons]
      rw [← Bool.or_assoc, ← Bool.or_assoc, Bool.or_comm (f y) (f x)]
  | trans _ _ ih1 ih2 => exact ih1.trans ih2

/-- Boolean membership only depends on the multiset of elements. -/
theorem perm_contains {l l' : List String} (h : List.Perm l l') (a : String) :
    l.contains a = l'.contains a := by
  rw [Bool.eq_iff_iff, strContains_iff, strContains_iff]
  exact h.mem_iff

/-- In-degree testing is insensitive to the order of the edge array. -/
theorem hasIncomingFrom_perm_edges {edges edges' : List EdgeT}
    (he : List.Perm edges edges') (S : List String) (n : String) :
    hasIncomingFrom edges' S n = hasIncomingFrom edges S n :=
  (perm_any he _).symm

/-- In-degree testing is insensitive to the order of the remaining set. -/
theorem hasIncomingFrom_perm_set {S S' : List String} (hS : List.Perm S S')
    (edges : List EdgeT) (n : String) :
    hasIncomingFrom edges S' n = hasIncomingFrom edges S n := by
  unfold hasIncomingFrom
  congr 1
  funext e
  rw [perm_contains hS e.source]

/-- The wave extracted from a reordered edge array is unchanged. -/
theorem nextWave_congr_edges {edges edges' : List EdgeT}
    (he : List.Perm edges edges') (S : List String) :
    nextWave edges' S = nextWave edges S := by
  unfold nextWave
  apply List.filter_congr
  intro x _
  rw [hasIncomingFrom_perm_edges he]

/-- The wave extracted from a reordered remaining set is the
correspondingly reordered wave. -/
theorem nextWave_perm_set {S S' : List String} (hS : List.Perm S S')
    (edges : List EdgeT) :
    List.Perm (nextWave edges S) (nextWave edges S') := by
  unfold nextWave
  have hcongr : S'.filter (fun n => !(hasIncomingFrom edges S' n)) =
      S'.filter (fun n => !(hasIncomingFrom edges S n)) := by
    apply List.filter_congr
    intro x _
    rw [hasIncomingFrom_perm_set hS]
  rw [hcongr]
  exact hS.filter _

/-- The whole wave loop is unchanged by reordering the edge array. -/
theorem wavesAux_perm_edges {edges edges' : List EdgeT}
    (he : List.Perm edges edges') :
    ∀ (fuel : Nat) (S : List String), wavesAux edges' fuel S = wavesAux edges fuel S := by
  intro fuel
  induction fuel with
  | zero => intro S; rfl
  | succ k ih =>
      intro S
      unfold wavesAux
      rw [nextWave_congr_edges he, ih]

/-- Reordering the node set permutes each wave (and the cycle report)
but changes nothing else about the plan. -/
theorem wavesAux_perm_set {edges : List EdgeT} :
    ∀ (fuel : Nat) {S S' : List String}, List.Perm S S' →
      PlanEquiv (wavesAux edges fuel S) (wavesAux edges fuel S') := by
  intro fuel
  induction fuel with
  | zero =>
      intro S S' h
      by_cases hS : S = []
      · subst hS
        have hS' : S' = [] := h.symm.eq_nil
        subst hS'
        exact List.Forall₂.nil
      · have hS' : S' ≠ [] := fun hh => hS ((hh ▸ h).eq_nil)
        have hSe : ¬(S.isEmpty = true) := by rw [List.isEmpty_iff]; exact hS
        have hS'e : ¬(S'.isEmpty = true) := by rw [List.isEmpty_iff]; exact hS'
        unfold wavesAux
        rw [if_neg hSe, if_neg hS'e]
        exact h
  | succ k ih =>
      intro S S' h
      by_cases hS : S = []
      · subst hS
        have hS' : S' = [] := h.symm.eq_nil
        subst hS'
        exact List.Forall₂.nil
      · have hS' : S' ≠ [] := fun hh => hS ((hh ▸ h).eq_nil)
        have hSe : ¬(S.isEmpty = true) := by rw [List.isEmpty_iff]; exact hS
        have hS'e : ¬(S'.isEmpty = true) := by rw [List.isEmpty_iff]; exact hS'
        unfold wavesAux
        rw [if_neg hSe, if_neg hS'e]
        have hwperm := nextWave_perm_set h edges
        by_cases hw : (nextWave edges S).isEmpty
        · have hwnil : nextWave edges S = [] := List.isEmpty_iff.mp hw
          have hw' : (nextWave edges S').isEmpty = true := by
            rw [List.isEmpty_iff]
            rw [hwnil] at hwperm
            exact hwperm.symm.eq_nil
          rw [if_pos hw, if_pos hw']
          exact h
        · have hw' : ¬ (nextWave edges S').isEmpty = true := by
            rw [List.isEmpty_iff] at hw ⊢
            intro hnil
            rw [hnil] at hwperm
            exact hw hwperm.eq_nil
          rw [if_neg hw, if_neg hw']
          have hsets : List.Perm (S.filter (fun n => !((nextWave edges S).contains n)))
              (S'.filter (fun n => !((nextWave edges S').contains n))) := by
            have hcongr : S'.filter (fun n => !((nextWave edges S').contains n)) =
                S'.filter (fun n => !((nextWave edges S).contains n)) := by
              apply List.filter_congr
              intro x _
              rw [perm_contains hwperm x]
            rw [hcongr]
            exact h.filter _
          have hrec := ih hsets
          rcases h1 : wavesAux edges k (S.filter (fun n => !((nextWave edges S).contains n)))
            with c | rest
          · rcases h2 : wavesAux edges k (S'.filter (fun n => !((nextWave edges S').contains n)))
              with c' | rest'
            · rw [h1, h2] at hrec
              exact hrec
            · rw [h1, h2] at hrec
              exact hrec.elim
          · rcases h2 : wavesAux edges k (S'.filter (fun n => !((nextWave edges S').contains n)))
              with c' | rest'
            · rw [h1, h2] at hrec
              exact hrec.elim
            · rw [h1, h2] at hrec
              exact List.Forall₂.cons hwperm hrec

/-! ### Flow-executor structure lemmas -/

/-- The states component of the full walk agrees with the states-only
denotation. -/
theorem runFlow_states (edges : List EdgeT) (exec : String → Except String String) :
    ∀ (todo : List String) (acc : RunAcc),
      (runFlow edges exec todo acc).states = runStates edges exec todo acc.states := by
  intro todo
  induction todo with
  | nil => intro acc; rfl
  | cons n rest ih =>
      intro acc
      rw [runFlow, runStates]
      exact ih _

/-- The callback log stays the projection of the succeeded entries. -/
theorem runFlow_calls_inv (edges : List EdgeT) (exec : String → Except String String) :
    ∀ (todo : List String) (acc : RunAcc),
      acc.calls = acc.states.filterMap toCall →
      (runFlow edges exec todo acc).calls =
        (runFlow edges exec todo acc).states.filterMap toCall := by
  intro todo
  induction todo with
  | nil => intro acc h; exact h
  | cons n rest ih =>
      intro acc h
      rw [runFlow]
      apply ih
      rw [List.filterMap_append, ← h]
      cases hst : stepNode edges exec acc.states n <;>
        simp [toCall, List.filterMap_cons]

/-- The invocation log stays the projection of the non-skipped entries. -/
theorem runFlow_invoked_inv (edges : List EdgeT) (exec : String → Except String String) :
    ∀ (todo : List String) (acc : RunAcc),
      acc.invoked = acc.states.filterMap toInvoked →
      (runFlow edges exec todo acc).invoked =
        (runFlow edges exec todo acc).states.filterMap toInvoked := by
  intro todo
  induction todo with
  | nil => intro acc h; exact h
  | cons n rest ih =>
      intro acc h
      rw [runFlow]
      apply ih
      rw [List.filterMap_append, ← h]
      cases hst : stepNode edges exec acc.states n <;>
        simp [toInvoked, List.filterMap_cons]

/-- Callback log of a full run. -/
theorem executeFlow_calls (edges : List EdgeT) (exec : String → Except String String)
    (plan : List (List String)) :
    (executeFlow edges exec plan).calls = (executeFlow edges exec plan).states.filterMap toCall :=
  runFlow_calls_inv edges exec plan.flatten ⟨[], [], []⟩ rfl

/-- Invocation log of a full run. -/
theorem executeFlow_invoked (edges : List EdgeT) (exec : String → Except String String)
    (plan : List (List String)) :
    (executeFlow edges exec plan).invoked =
      (executeFlow edges exec plan).states.filterMap toInvoked :=
  runFlow_invoked_inv edges exec plan.flatten ⟨[], [], []⟩ rfl

/-- Counting published callbacks equals counting succeeded entries. -/
theorem count_filterMap_toCall (q v : String) :
    ∀ (s : List (String × NodeState)),
      (s.filterMap toCall).count (q, v) = s.count (q, NodeState.succeeded v) := by
  intro s
  induction s with
  | nil => rfl
  | cons p rest ih =>
      rcases p with ⟨n, st⟩
      cases st with
      | succeeded w =>
          rw [List.filterMap_cons]
          show ((n, w) :: rest.filterMap toCall).count (q, v) = _
          rw [List.count_cons, List.count_cons, ih]
          congr 1
          simp [Prod.ext_iff]
      | failed e =>
          rw [List.filterMap_cons]
          show (rest.filterMap toCall).count (q, v) = _
          rw [List.count_cons, ih]
          simp
      | skipped =>
          rw [List.filterMap_cons]
          show (rest.filterMap toCall).count (q, v) = _
          rw [List.count_cons, ih]
          simp

/-! ### State-lookup lemmas -/

/-- A recorded state persists when the map is extended on the right. -/
theorem stateOf_append_left {s t : List (String × NodeState)} {q : String}
    {st : NodeState} (h : stateOf s q = some st) : stateOf (s ++ t) q = some st := by
  unfold stateOf at h ⊢
  rcases hf : s.find? (fun p => p.1 == q) with _ | p
  · rw [hf] at h; cases h
  · rw [List.find?_append, hf]
    rw [hf] at h
    exact h

/-- Lookup skips a prefix that does not bind the key. -/
theorem stateOf_append_right {s t : List (String × NodeState)} {q : String}
    (h : q ∉ s.map Prod.fst) : stateOf (s ++ t) q = stateOf t q := by
  have hf : s.find? (fun p => p.1 == q) = none := by
    rw [List.find?_eq_none]
    intro x hx hbad
    exact h (List.mem_map.mpr ⟨x, hx, by simpa using hbad⟩)
  unfold stateOf
  rw [List.find?_append, hf, Option.none_or]

/-- A bound key has a recorded state. -/
theorem stateOf_mem_keys {s : List (String × NodeState)} {q : String}
    (h : q ∈ s.map Prod.fst) : ∃ st, stateOf s q = some st := by
  rcases hf : s.find? (fun p => p.1 == q) with _ | p
  · rw [List.find?_eq_none] at hf
    obtain ⟨x, hx, hq⟩ := List.mem_map.mp h
    exact absurd (by rw [hq]; simp) (hf x hx)
  · exact ⟨p.2, by unfold stateOf; rw [hf]; rfl⟩

/-- A recorded state means the key is bound. -/
theorem mem_keys_of_stateOf {s : List (String × NodeState)} {q : String}
    {st : NodeState} (h : stateOf s q = some st) : q ∈ s.map Prod.fst := by
  unfold stateOf at h
  rcases hf : s.find? (fun p => p.1 == q) with _ | p
  · rw [hf] at h; cases h
  · have hp := List.mem_of_find?_eq_some hf
    have hpq := List.find?_some hf
    exact List.mem_map.mpr ⟨p, hp, by simpa using hpq⟩

/-- With duplicate-free keys, each entry is what lookup returns. -/
theorem stateOf_of_mem_nodup {s : List (String × NodeState)}
    (hnd : (s.map Prod.fst).Nodup) {q : String} {st : NodeState}
    (h : (q, st) ∈ s) : stateOf s q = some st := by
  induction s with
  | nil => cases h
  | cons a as ih =>
      rw [List.map_cons, List.nodup_cons] at hnd
      rcases List.mem_cons.mp h with heq | hmem
      · rw [← heq]
        unfold stateOf
        rw [List.find?_cons]
        simp
      · have hqa : (a.1 == q) = false := by
          rw [Bool.eq_false_iff]
          intro hb
          rw [beq_iff_eq] at hb
          exact hnd.1 (hb ▸ List.mem_map.mpr ⟨(q, st), hmem, rfl⟩)
        unfold stateOf
        rw [List.find?_cons, hqa]
        exact ih hnd.2 hmem

/-! ### Denotation of the walk -/

/-- Keys recorded by the walk are the processed ids, in order. -/
theorem runStates_keys (edges : List EdgeT) (exec : String → Except String String) :
    ∀ (todo : List String) (s : List (String × NodeState)),
      (runStates edges exec todo s).map Prod.fst = s.map Prod.fst ++ todo := by
  intro todo
  induction todo with
  | nil => intro s; simp [runStates]
  | cons n rest ih =>
      intro s
      rw [runStates, ih]
      simp

/-- The walk processes an append in two stages. -/
theorem runStates_append (edges : List EdgeT) (exec : String → Except String String) :
    ∀ (a b : List String) (s : List (String × NodeState)),
      runStates edges exec (a ++ b) s = runStates edges exec b (runStates edges exec a s) := by
  intro a
  induction a with
  | nil => intro b s; rfl
  | cons n rest ih =>
      intro b s
      rw [List.cons_append, runStates, runStates, ih]

/-- A state recorded before the walk survives it. -/
theorem runStates_extend (edges : List EdgeT) (exec : String → Except String String) :
    ∀ (todo : List String) (s : List (String × NodeState)) (q : String) (st : NodeState),
      stateOf s q = some st → stateOf (runStates edges exec todo s) q = some st := by
  intro todo
  induction todo with
  | nil => intro s q st h; exact h
  | cons n rest ih =>
      intro s q st h
      rw [runStates]
      exact ih _ q st (stateOf_append_left h)

/-- State recorded for a node, as a function of the states accumulated
over the strict prefix of the processing order. -/
theorem runStates_processed (edges : List EdgeT) (exec : String → Except String String)
    (order : List String) (hnd : order.Nodup) {pre post : List String} {q : String}
    (hdecomp : order = pre ++ q :: post) :
    stateOf (runStates edges exec order []) q =
      some (stepNode edges exec (runStates edges exec pre []) q) := by
  subst hdecomp
  rw [runStates_append, runStates]
  apply runStates_extend
  have hq : q ∉ (runStates edges exec pre ([] : List (String × NodeState))).map Prod.fst := by
    rw [runStates_keys]
    intro hq
    simp only [List.map_nil, List.nil_append] at hq
    exact (List.disjoint_of_nodup_append hnd) hq (List.mem_cons_self q post)
  rw [stateOf_append_right hq]
  unfold stateOf
  rw [List.find?_cons]
  simp

/-- Readiness characterised: every in-edge source has succeeded. -/
theorem depsOk_iff (edges : List EdgeT) (s : List (String × NodeState)) (n : String) :
    depsOk edges s n = true ↔
      ∀ e ∈ edges, e.target = n → ∃ v, stateOf s e.source = some (.succeeded v) := by
  unfold depsOk
  rw [List.all_eq_true]
  constructor
  · intro h e he ht
    have hb := h e he
    rw [Bool.or_eq_true] at hb
    rcases hb with hb | hb
    · rw [Bool.not_eq_true', beq_eq_false_iff_ne] at hb
      exact absurd ht hb
    · rcases hso : stateOf s e.source with _ | st
      · rw [hso] at hb; cases hb
      · rw [hso] at hb
        cases st with
        | succeeded v => exact ⟨v, rfl⟩
        | failed e0 => cases hb
        | skipped => cases hb
  · intro h e he
    rw [Bool.or_eq_true]
    by_cases ht : e.target = n
    · obtain ⟨v, hv⟩ := h e he ht
      rw [hv]
      exact Or.inr rfl
    · exact Or.inl (by rw [Bool.not_eq_true', beq_eq_false_iff_ne]; exact ht)

/-- A node with a non-succeeded recorded dependency ends skipped. -/
theorem run_dep_not_succeeded (edges : List EdgeT) (exec : String → Except String String)
    (order : List String) (hnd : order.Nodup)
    (horder : ∀ e ∈ edges, e.target ∈ order)
    {p q : String} {st : NodeState} (hedge : edgeRel edges p q)
    (hp : stateOf (runStates edges exec order []) p = some st)
    (hns : ∀ v, st ≠ .succeeded v) :
    stateOf (runStates edges exec order []) q = some .skipped := by
  obtain ⟨e', he', hs, ht⟩ := hedge
  have hq : q ∈ order := ht ▸ horder e' he'
  obtain ⟨pre, post, hdecomp⟩ := List.append_of_mem hq
  rw [runStates_processed edges exec order hnd hdecomp]
  have hdeps : ¬(depsOk edges (runStates edges exec pre []) q = true) := by
    rw [depsOk_iff]
    intro hall
    obtain ⟨v, hv⟩ := hall e' he' ht
    have hfin : stateOf (runStates edges exec order []) e'.source =
        some (.succeeded v) := by
      rw [hdecomp, runStates_append, runStates]
      exact runStates_extend _ _ _ _ _ _ (stateOf_append_left hv)
    rw [hs, hp] at hfin
    injection hfin with hfin
    exact hns v hfin
  unfold stepNode
  rw [if_neg hdeps]

/-- Skip origin, length-bounded auxiliary form: a skipped node has a
failed node among its transitive dependencies. -/
theorem run_skip_origin_aux (edges : List EdgeT) (exec : String → Except String String)
    (order : List String) (hnd : order.Nodup) (hEB : EdgeBefore edges order) :
    ∀ (k : Nat) (pre : List String) (q : String) (post : List String),
      pre.length ≤ k → order = pre ++ q :: post →
      stateOf (runStates edges exec order []) q = some .skipped →
      ∃ n e, stateOf (runStates edges exec order []) n = some (.failed e) ∧
        Relation.TransGen (edgeRel edges) n q := by
  have core : ∀ (pre : List String) (q : String) (post : List String),
      order = pre ++ q :: post →
      stateOf (runStates edges exec order []) q = some .skipped →
      ∃ p st, p ∈ pre ∧ stateOf (runStates edges exec order []) p = some st ∧
        (∀ v, st ≠ NodeState.succeeded v) ∧ edgeRel edges p q := by
    intro pre q post hdecomp hskip
    have hstep := runStates_processed edges exec order hnd hdecomp
    rw [hskip] at hstep
    injection hstep with hstep
    have hdeps : ¬(depsOk edges (runStates edges exec pre []) q = true) := by
      intro hd
      unfold stepNode at hstep
      rw [if_pos hd] at hstep
      rcases hexec : exec q with err | v <;> rw [hexec] at hstep <;> cases hstep
    rw [depsOk_iff] at hdeps
    push_neg at hdeps
    obtain ⟨e, he, htq, hnos⟩ := hdeps
    have hsrc : e.source ∈ pre := hEB pre q post hdecomp e he htq
    have hkey : e.source ∈
        (runStates edges exec pre ([] : List (String × NodeState))).map Prod.fst := by
      rw [runStates_keys]
      simpa using hsrc
    obtain ⟨st, hst⟩ := stateOf_mem_keys hkey
    have hstfinal : stateOf (runStates edges exec order []) e.source = some st := by
      rw [hdecomp, runStates_append, runStates]
      exact runStates_extend _ _ _ _ _ _ (stateOf_append_left hst)
    refine ⟨e.source, st, hsrc, hstfinal, ?_, e, he, rfl, htq⟩
    intro v hv
    exact hnos v (by rw [hst, hv])
  intro k
  induction k with
  | zero =>
      intro pre q post hle hdecomp hskip
      obtain ⟨p, st, hppre, hpfinal, hnsucc, hedge⟩ := core pre q post hdecomp hskip
      have : pre = [] := List.length_eq_zero.mp (Nat.le_zero.mp hle)
      subst this
      cases hppre
  | succ k ih =>
      intro pre q post hle hdecomp hskip
      obtain ⟨p, st, hppre, hpfinal, hnsucc, hedge⟩ := core pre q post hdecomp hskip
      cases st with
      | succeeded v => exact absurd rfl (hnsucc v)
      | failed e0 => exact ⟨p, e0, hpfinal, Relation.TransGen.single hedge⟩
      | skipped =>
          obtain ⟨pre₂, rest₂, hpre⟩ := List.append_of_mem hppre
          have hdecomp2 : order = pre₂ ++ p :: (rest₂ ++ q :: post) := by
            rw [hdecomp, hpre]
            simp
          have hlen2 : pre₂.length ≤ k := by
            rw [hpre] at hle
            simp at hle
            omega
          obtain ⟨n, e0, hn, htg⟩ := ih pre₂ p (rest₂ ++ q :: post) hlen2 hdecomp2 hpfinal
          exact ⟨n, e0, hn, htg.tail hedge⟩

/-- Skip origin: every skipped node transitively depends on a failed node. -/
theorem run_skip_origin (edges : List EdgeT) (exec : String → Except String String)
    (order : List String) (hnd : order.Nodup) (hEB : EdgeBefore edges order)
    {q : String} (hq : q ∈ order)
    (hskip : stateOf (runStates edges exec order []) q = some .skipped) :
    ∃ n e, stateOf (runStates edges exec order []) n = some (.failed e) ∧
      Relation.TransGen (edgeRel edges) n q := by
  obtain ⟨pre, post, hdecomp⟩ := List.append_of_mem hq
  exact run_skip_origin_aux edges exec order hnd hEB pre.length pre q post le_rfl
    hdecomp hskip

/-- Failure propagation: every transitive dependent of a failed node is
skipped. -/
theorem run_fail_propagates (edges : List EdgeT) (exec : String → Except String String)
    (order : List String) (hnd : order.Nodup)
    (horder : ∀ e ∈ edges, e.target ∈ order) :
    ∀ {n e q : String}, stateOf (runStates edges exec order []) n = some (.failed e) →
      Relation.TransGen (edgeRel edges) n q →
      stateOf (runStates edges exec order []) q = some .skipped := by
  intro n e q hn htg
  induction htg with
  | single h1 =>
      exact run_dep_not_succeeded edges exec order hnd horder h1 hn
        (fun v hv => by cases hv)
  | tail htg' h1 ih =>
      exact run_dep_not_succeeded edges exec order hnd horder h1 ih
        (fun v hv => by cases hv)

/-- A recorded failure identifies its executor error. -/
theorem run_failed_exec (edges : List EdgeT) (exec : String → Except String String)
    (order : List String) (hnd : order.Nodup) {q e : String}
    (h : stateOf (runStates edges exec order []) q = some (.failed e)) :
    exec q = .error e := by
  have hqmem : q ∈ order := by
    have hk := mem_keys_of_stateOf h
    rw [runStates_keys] at hk
    simpa using hk
  obtain ⟨pre, post, hdecomp⟩ := List.append_of_mem hqmem
  rw [runStates_processed edges exec order hnd hdecomp] at h
  injection h with h
  unfold stepNode at h
  by_cases hd : depsOk edges (runStates edges exec pre []) q = true
  · rw [if_pos hd] at h
    rcases hexec : exec q with err | v <;> rw [hexec] at h
    · injection h with h
      rw [h]
    · cases h
  · rw [if_neg hd] at h
    cases h

/-- A recorded success identifies its executor result. -/
theorem run_succeeded_exec (edges : List EdgeT) (exec : String → Except String String)
    (order : List String) (hnd : order.Nodup) {q v : String}
    (h : stateOf (runStates edges exec order []) q = some (.succeeded v)) :
    exec q = .ok v := by
  have hqmem : q ∈ order := by
    have hk := mem_keys_of_stateOf h
    rw [runStates_keys] at hk
    simpa using hk
  obtain ⟨pre, post, hdecomp⟩ := List.append_of_mem hqmem
  rw [runStates_processed edges exec order hnd hdecomp] at h
  injection h with h
  unfold stepNode at h
  by_cases hd : depsOk edges (runStates edges exec pre []) q = true
  · rw [if_pos hd] at h
    rcases hexec : exec q with err | w <;> rw [hexec] at h
    · cases h
    · injection h with h
      rw [h]
  · rw [if_neg hd] at h
    cases h

/-- Success: a node whose executor succeeds and that does not depend,
transitively, on any failed node ends succeeded. -/
theorem run_success (edges : List EdgeT) (exec : String → Except String String)
    (order : List String) (hnd : order.Nodup) (hEB : EdgeBefore edges order)
    {q v : String} (hq : q ∈ order)
    (hnofail : ∀ n e, stateOf (runStates edges exec order []) n = some (.failed e) →
      ¬ Relation.TransGen (edgeRel edges) n q)
    (hexec : exec q = .ok v) :
    stateOf (runStates edges exec order []) q = some (.succeeded v) := by
  obtain ⟨pre, post, hdecomp⟩ := List.append_of_mem hq
  rw [runStates_processed edges exec order hnd hdecomp]
  have hdeps : depsOk edges (runStates edges exec pre []) q = true := by
    rw [depsOk_iff]
    intro e he htq
    have hsrc : e.source ∈ pre := hEB pre q post hdecomp e he htq
    have hkey : e.source ∈
        (runStates edges exec pre ([] : List (String × NodeState))).map Prod.fst := by
      rw [runStates_keys]
      simpa using hsrc
    obtain ⟨st, hst⟩ := stateOf_mem_keys hkey
    have hstfin : stateOf (runStates edges exec order []) e.source = some st := by
      rw [hdecomp, runStates_append, runStates]
      exact runStates_extend _ _ _ _ _ _ (stateOf_append_left hst)
    have hedge : edgeRel edges e.source q := ⟨e, he, rfl, htq⟩
    cases st with
    | succeeded w => exact ⟨w, hst⟩
    | failed e0 => exact absurd (Relation.TransGen.single hedge) (hnofail _ _ hstfin)
    | skipped =>
        have hsrcord : e.source ∈ order := by
          rw [hdecomp]
          exact List.mem_append_left _ hsrc
        obtain ⟨n, e0, hn, htg⟩ := run_skip_origin edges exec order hnd hEB hsrcord hstfin
        exact absurd (htg.tail hedge) (hnofail _ _ hn)
  unfold stepNode
  rw [if_pos hdeps, hexec]

/-! ### Plan-level wrappers -/

/-- Soundness transported to `generateExecutionPlan`. -/
theorem genPlan_sound {nodes : List NodeT} {edges : List EdgeT}
    {plan : List (List String)} (h : generateExecutionPlan nodes edges = .ok plan) :
    (∀ n ∈ nodes.map NodeT.id, ∃ i, waveIdx n plan = some i) ∧
    (∀ e ∈ edges, e.source ∈ nodes.map NodeT.id → e.target ∈ nodes.map NodeT.id →
      ∃ i j, waveIdx e.source plan = some i ∧ waveIdx e.target plan = some j ∧ i < j) :=
  wavesAux_sound _ _ _ h

/-- The flattened plan is a permutation of the node ids. -/
theorem genPlan_flatten_perm {nodes : List NodeT} {edges : List EdgeT}
    {plan : List (List String)} (h : generateExecutionPlan nodes edges = .ok plan) :
    List.Perm plan.flatten (nodes.map NodeT.id) :=
  wavesAux_flatten_perm _ _ _ h

/-- The linearised plan lists every in-edge source before its target. -/
theorem genPlan_edgeBefore {nodes : List NodeT} {edges : List EdgeT}
    {plan : List (List String)}
    (hwf : ∀ e ∈ edges, e.source ∈ nodes.map NodeT.id ∧ e.target ∈ nodes.map NodeT.id)
    (h : generateExecutionPlan nodes edges = .ok plan) :
    EdgeBefore edges plan.flatten := by
  intro pre n post hdecomp e he htq
  obtain ⟨i, j, hi, hj, hij⟩ :=
    (genPlan_sound h).2 e he (hwf e he).1 (hwf e he).2
  subst htq
  exact waveIdx_lt_mem_prefix plan e.source e.target i j pre post hi hj hij hdecomp

/-! ### Run-outcome lemmas -/

/-- Decomposition at the first hit of `findSome?`. -/
theorem findSome?_eq_some_split {α β : Type} (f : α → Option β) :
    ∀ (l : List α) (y : β), l.findSome? f = some y →
      ∃ l₁ a l₂, l = l₁ ++ a :: l₂ ∧ f a = some y ∧ ∀ b ∈ l₁, f b = none := by
  intro l
  induction l with
  | nil => intro y h; cases h
  | cons a as ih =>
      intro y h
      rw [List.findSome?_cons] at h
      rcases hfa : f a with _ | z
      · rw [hfa] at h
        obtain ⟨l₁, b, l₂, rfl, hfb, hnone⟩ := ih y h
        refine ⟨a :: l₁, b, l₂, rfl, hfb, ?_⟩
        intro c hc
        rcases List.mem_cons.mp hc with rfl | hc
        · exact hfa
        · exact hnone c hc
      · rw [hfa] at h
        injection h with h
        subst h
        exact ⟨[], a, as, rfl, hfa, by intro b hb; cases hb⟩

/-- No failure entry means no first failure. -/
theorem firstFailure_eq_none_iff (states : List (String × NodeState)) :
    firstFailure states = none ↔ ∀ p ∈ states, ∀ e, p.2 ≠ NodeState.failed e := by
  unfold firstFailure
  rw [List.findSome?_eq_none_iff]
  constructor
  · intro h p hp e hfail
    have := h p hp
    rw [hfail] at this
    cases this
  · intro h p hp
    rcases hst : p.2 with v | e
    · rfl
    · exact absurd hst (h p hp e)
    · rfl

/-- A failure entry rules out the no-failure outcome. -/
theorem firstFailure_ne_none_of_mem {states : List (String × NodeState)}
    {q e : String} (h : (q, NodeState.failed e) ∈ states) :
    firstFailure states ≠ none := by
  rw [Ne, firstFailure_eq_none_iff]
  push_neg
  exact ⟨(q, NodeState.failed e), h, e, rfl⟩

/-- Lookup success yields a corresponding entry. -/
theorem mem_of_stateOf {s : List (String × NodeState)} {q : String} {st : NodeState}
    (h : stateOf s q = some st) : (q, st) ∈ s := by
  unfold stateOf at h
  rcases hf : s.find? (fun p => p.1 == q) with _ | p
  · rw [hf] at h; cases h
  · rw [hf] at h
    have hmem := List.mem_of_find?_eq_some hf
    have hkey := List.find?_some hf
    rw [beq_iff_eq] at hkey
    rcases p with ⟨a, b⟩
    simp at h hkey
    rw [← hkey, ← h]
    exact hmem

/-- Without failures, every node of a dependency-closed run succeeds. -/
theorem run_no_fail_all_succeeded (edges : List EdgeT)
    (exec : String → Except String String) (order : List String)
    (hnd : order.Nodup) (hEB : EdgeBefore edges order)
    (hnofail : ∀ q e, stateOf (runStates edges exec order []) q ≠ some (.failed e)) :
    ∀ p ∈ runStates edges exec order ([] : List (String × NodeState)),
      ∃ v, p.2 = NodeState.succeeded v := by
  intro p hp
  have hkeysnd :
      ((runStates edges exec order ([] : List (String × NodeState))).map Prod.fst).Nodup := by
    rw [runStates_keys]
    simpa using hnd
  rcases p with ⟨q, st⟩
  have hso : stateOf (runStates edges exec order []) q = some st :=
    stateOf_of_mem_nodup hkeysnd hp
  cases st with
  | succeeded v => exact ⟨v, rfl⟩
  | failed e => exact absurd hso (hnofail q e)
  | skipped =>
      have hqord : q ∈ order := by
        have hk := mem_keys_of_stateOf hso
        rw [runStates_keys] at hk
        simpa using hk
      obtain ⟨n, e, hn, -⟩ := run_skip_origin edges exec order hnd hEB hqord hso
      exact absurd hn (hnofail n e)

/-! ### Alias-chain characterisation -/

/-- A chain of JS `||` fallbacks over key lookups picks the first truthy
bound value, with the final literal as default. -/
theorem chain_eq_firstTruthy (inputs : InputMap) :
    ∀ (keys : List String),
      keys.foldr (fun k acc => jsOrV (jsLookup inputs k) acc) (.vStr "") =
        (firstTruthyAlias inputs keys).getD (.vStr "") := by
  intro keys
  induction keys with
  | nil => rfl
  | cons k ks ih =>
      rw [List.foldr_cons]
      unfold firstTruthyAlias
      rw [List.findSome?_cons]
      unfold firstTruthyAlias at ih
      rcases hk : jsLookup inputs k with _ | v
      · simpa [jsOrV] using ih
      · cases ht : jsTruthy v
        · simpa [jsOrV, ht] using ih
        · simp [jsOrV, ht]

/-- The executor's alias chain picks the first truthy alias value. -/
theorem resolveAliasInput_eq_firstTruthy (inputs : InputMap) :
    resolveAliasInput inputs =
      (firstTruthyAlias inputs ["text", "text-in", "default"]).getD (.vStr "") :=
  chain_eq_firstTruthy inputs ["text", "text-in", "default"]

/-- An empty dependency relation supports no nonempty path. -/
theorem transGen_nil_elim {a b : String}
    (h : Relation.TransGen (edgeRel []) a b) : False := by
  cases h with
  | single h1 => obtain ⟨e, he, -⟩ := h1; cases he
  | tail _ h1 => obtain ⟨e, he, -⟩ := h1; cases he

/-! ### Claims -/

/-- C1: for every acyclic graph, `generateExecutionPlan` succeeds, every
node receives a position (wave index) in the plan, and along every edge
the source's position is strictly before the target's position. -/
theorem C1_acyclic_plan_succeeds_and_orders (nodes : List NodeT) (edges : List EdgeT)
    (hwf : ∀ e ∈ edges, e.source ∈ nodes.map NodeT.id ∧ e.target ∈ nodes.map NodeT.id)
    (hacyc : ∀ n, ¬ Relation.TransGen (edgeRel edges) n n) :
    ∃ plan, generateExecutionPlan nodes edges = .ok plan ∧
      (∀ n ∈ nodes.map NodeT.id, ∃ i, waveIdx n plan = some i) ∧
      (∀ e ∈ edges, ∃ i j, waveIdx e.source plan = some i ∧
        waveIdx e.target plan = some j ∧ i < j) := by
  obtain ⟨plan, hplan⟩ := wavesAux_ok_of_acyclic hacyc nodes.length (nodes.map NodeT.id)
    (by rw [List.length_map])
  refine ⟨plan, hplan, (wavesAux_sound _ _ _ hplan).1, ?_⟩
  intro e he
  exact (wavesAux_sound _ _ _ hplan).2 e he (hwf e he).1 (hwf e he).2

/-- Witness for C1 on the concrete graph `a → b`. -/
theorem C1_acyclic_plan_succeeds_and_orders_witness :
    (∀ e ∈ [edgeAB], e.source ∈ [nodeA, nodeB].map NodeT.id ∧
      e.target ∈ [nodeA, nodeB].map NodeT.id) ∧
    (∀ n, ¬ Relation.TransGen (edgeRel [edgeAB]) n n) ∧
    (∃ plan, generateExecutionPlan [nodeA, nodeB] [edgeAB] = .ok plan ∧
      (∀ n ∈ [nodeA, nodeB].map NodeT.id, ∃ i, waveIdx n plan = some i) ∧
      (∀ e ∈ [edgeAB], ∃ i j, waveIdx e.source plan = some i ∧
        waveIdx e.target plan = some j ∧ i < j)) := by
  have hwf : ∀ e ∈ [edgeAB], e.source ∈ [nodeA, nodeB].map NodeT.id ∧
      e.target ∈ [nodeA, nodeB].map NodeT.id := by decide
  have hacyc := acyclic_of_rank [edgeAB] (fun s => if s = "b" then 1 else 0) (by decide)
  exact ⟨hwf, hacyc, C1_acyclic_plan_succeeds_and_orders [nodeA, nodeB] [edgeAB] hwf hacyc⟩

/-- C2: for every graph whose dependency relation has a cycle,
`generateExecutionPlan` fails with the cycle-witness set of remaining
node ids, and that set contains a node lying on a cycle. -/
theorem C2_cycle_is_detected (nodes : List NodeT) (edges : List EdgeT)
    (hwf : ∀ e ∈ edges, e.target ∈ nodes.map NodeT.id)
    (hcyc : ∃ n, Relation.TransGen (edgeRel edges) n n) :
    ∃ rem, generateExecutionPlan nodes edges = .error rem ∧
      ∃ m ∈ rem, Relation.TransGen (edgeRel edges) m m := by
  have hinv : ∀ m, Relation.TransGen (edgeRel edges) m m → m ∈ nodes.map NodeT.id :=
    fun m hm => transGen_target_mem hwf hm
  obtain ⟨rem, hrem, hreminv⟩ := wavesAux_cyclic nodes.length (nodes.map NodeT.id) hinv hcyc
  obtain ⟨n0, hn0⟩ := hcyc
  exact ⟨rem, hrem, n0, hreminv n0 hn0, hn0⟩

/-- Witness for C2 on the concrete two-cycle `a → b → a`. -/
theorem C2_cycle_is_detected_witness :
    (∀ e ∈ [edgeAB, edgeBA], e.target ∈ [nodeA, nodeB].map NodeT.id) ∧
    (∃ n, Relation.TransGen (edgeRel [edgeAB, edgeBA]) n n) ∧
    (∃ rem, generateExecutionPlan [nodeA, nodeB] [edgeAB, edgeBA] = .error rem ∧
      ∃ m ∈ rem, Relation.TransGen (edgeRel [edgeAB, edgeBA]) m m) := by
  have hwf : ∀ e ∈ [edgeAB, edgeBA], e.target ∈ [nodeA, nodeB].map NodeT.id := by decide
  have h1 : edgeRel [edgeAB, edgeBA] "a" "b" :=
    ⟨edgeAB, List.mem_cons_self _ _, rfl, rfl⟩
  have h2 : edgeRel [edgeAB, edgeBA] "b" "a" :=
    ⟨edgeBA, List.mem_cons_of_mem _ (List.mem_cons_self _ _), rfl, rfl⟩
  have hcyc : ∃ n, Relation.TransGen (edgeRel [edgeAB, edgeBA]) n n :=
    ⟨"a", (Relation.TransGen.single h1).tail h2⟩
  exact ⟨hwf, hcyc, C2_cycle_is_detected [nodeA, nodeB] [edgeAB, edgeBA] hwf hcyc⟩

/-- C8: the plan builder is a pure function (same arrays, same plan),
reordering the edge array leaves the plan unchanged, and reordering the
node array produces the same plan up to within-wave order (waves are
pairwise permutations; node order within a wave follows input order). -/
theorem C8_plan_deterministic_order_insensitive (nodes nodes' : List NodeT)
    (edges edges' : List EdgeT) (hn : List.Perm nodes nodes')
    (he : List.Perm edges edges') :
    generateExecutionPlan nodes edges = generateExecutionPlan nodes edges ∧
    generateExecutionPlan nodes edges' = generateExecutionPlan nodes edges ∧
    PlanEquiv (generateExecutionPlan nodes edges) (generateExecutionPlan nodes' edges') := by
  refine ⟨rfl, ?_, ?_⟩
  · exact wavesAux_perm_edges he nodes.length (nodes.map NodeT.id)
  · show PlanEquiv (wavesAux edges nodes.length (nodes.map NodeT.id))
      (wavesAux edges' nodes'.length (nodes'.map NodeT.id))
    rw [wavesAux_perm_edges he nodes'.length (nodes'.map NodeT.id), hn.length_eq]
    exact wavesAux_perm_set nodes'.length (hn.map NodeT.id)

/-- Witness for C8 on a concrete node reordering. -/
theorem C8_plan_deterministic_order_insensitive_witness :
    List.Perm [nodeA, nodeB] [nodeB, nodeA] ∧ List.Perm [edgeAB] [edgeAB] ∧
    (generateExecutionPlan [nodeA, nodeB] [edgeAB] =
        generateExecutionPlan [nodeA, nodeB] [edgeAB] ∧
      generateExecutionPlan [nodeA, nodeB] [edgeAB] =
        generateExecutionPlan [nodeA, nodeB] [edgeAB] ∧
      PlanEquiv (generateExecutionPlan [nodeA, nodeB] [edgeAB])
        (generateExecutionPlan [nodeB, nodeA] [edgeAB])) :=
  ⟨List.Perm.swap nodeB nodeA [], List.Perm.refl _,
    C8_plan_deterministic_order_insensitive [nodeA, nodeB] [nodeB, nodeA]
      [edgeAB] [edgeAB] (List.Perm.swap nodeB nodeA []) (List.Perm.refl _)⟩

/-- C3 counterexample: with `inputs.text` bound to the empty string and
`inputs['text-in']` bound to `"hi"`, the executor does not use the value
under the present key `"text"` (as the claim's presence-based chain
would) but skips the falsy value and returns `"hi"`. -/
theorem C3_presence_chain_counterexample :
    (executeImageDescriptionOutput "n"
      [("text", JSValue.vStr ""), ("text-in", JSValue.vStr "hi")] true).1 ≠
    jsToOutputString (claimPresenceResolve
      [("text", JSValue.vStr ""), ("text-in", JSValue.vStr "hi")]) := by
  decide

/-- C3 (amended): the value the executor uses is the first truthy value
along the fixed alias chain `text`, `text-in`, `default` (a present but
falsy value is skipped); when no alias key holds a truthy value the
empty string is used instead of an error, and the executor returns the
resolved value unchanged when it is a string and its JSON serialisation
otherwise. -/
theorem C3_truthy_alias_chain (nid : String) (inputs : InputMap) (cb : Bool) :
    (executeImageDescriptionOutput nid inputs cb).1 =
      jsToOutputString
        ((firstTruthyAlias inputs ["text", "text-in", "default"]).getD (.vStr "")) := by
  show jsToOutputString (resolveAliasInput inputs) = _
  rw [resolveAliasInput_eq_firstTruthy]

/-- C9: the alias resolution skips falsy values, not only absent keys —
an explicitly supplied empty string under `"text"` is overridden by a
non-empty `"text-in"` value. -/
theorem C9_falsy_alias_overridden (nid : String) (inputs : InputMap) (cb : Bool)
    (s : String) (h1 : jsLookup inputs "text" = some (JSValue.vStr ""))
    (h2 : jsLookup inputs "text-in" = some (JSValue.vStr s)) (h3 : s ≠ "") :
    (executeImageDescriptionOutput nid inputs cb).1 = s := by
  show jsToOutputString (resolveAliasInput inputs) = s
  unfold resolveAliasInput
  rw [h1, h2]
  have ht1 : jsTruthy (JSValue.vStr "") = false := rfl
  have ht2 : jsTruthy (JSValue.vStr s) = true := by
    simp [jsTruthy]
    exact h3
  simp [jsOrV, ht1, ht2, jsToOutputString]

/-- Witness for C9 at a concrete inputs map. -/
theorem C9_falsy_alias_overridden_witness :
    jsLookup [("text", JSValue.vStr ""), ("text-in", JSValue.vStr "hi")] "text"
        = some (JSValue.vStr "") ∧
    jsLookup [("text", JSValue.vStr ""), ("text-in", JSValue.vStr "hi")] "text-in"
        = some (JSValue.vStr "hi") ∧
    "hi" ≠ "" ∧
    (executeImageDescriptionOutput "n"
      [("text", JSValue.vStr ""), ("text-in", JSValue.vStr "hi")] true).1 = "hi" :=
  ⟨rfl, rfl, by decide,
    C9_falsy_alias_overridden "n"
      [("text", JSValue.vStr ""), ("text-in", JSValue.vStr "hi")] true "hi" rfl rfl
      (by decide)⟩

/-- C6: the flow executor publishes exactly one `(nodeId, result)`
callback per succeeded node — the callback log is exactly the projection
of the succeeded entries of the run state, entry counts included — and
the `imageDescriptionOutputNode` executor, whenever `updateNodeOutput`
is provided, calls it exactly once with `(node.id, v)` where `v` is the
value it returns. -/
theorem C6_callback_once_per_success :
    (∀ (edges : List EdgeT) (exec : String → Except String String)
        (plan : List (List String)),
      (executeFlow edges exec plan).calls =
        (executeFlow edges exec plan).states.filterMap toCall ∧
      ∀ q v, (executeFlow edges exec plan).calls.count (q, v) =
        (executeFlow edges exec plan).states.count (q, NodeState.succeeded v)) ∧
    (∀ (nid : String) (inputs : InputMap),
      (executeImageDescriptionOutput nid inputs true).2 =
        [(nid, (executeImageDescriptionOutput nid inputs true).1)] ∧
      (executeImageDescriptionOutput nid inputs false).2 = []) := by
  constructor
  · intro edges exec plan
    refine ⟨executeFlow_calls edges exec plan, ?_⟩
    intro q v
    rw [executeFlow_calls]
    exact count_filterMap_toCall q v _
  · intro nid inputs
    exact ⟨rfl, rfl⟩

/-- C4 counterexample: in the single-node run where node `a`'s executor
fails, `a` transitively depends on no failed node (the graph has no
edges at all), yet `a` ends `Failed`, not `Succeeded` — refuting the
claim's clause that every node not transitively depending on any failed
node still ends in state `Succeeded`. -/
theorem C4_failure_containment_counterexample :
    (∀ n, ¬ Relation.TransGen (edgeRel ([] : List EdgeT)) n "a") ∧
    stateOf (executeFlow [] execBoom [["a"]]).states "a"
      = some (NodeState.failed "boom") ∧
    ∀ v, stateOf (executeFlow [] execBoom [["a"]]).states "a"
      ≠ some (NodeState.succeeded v) := by
  refine ⟨fun n h => transGen_nil_elim h, rfl, ?_⟩
  intro v h
  have hr : stateOf (executeFlow [] execBoom [["a"]]).states "a"
      = some (NodeState.failed "boom") := rfl
  rw [hr] at h
  simp at h

/-- C4 (amended): in every run, a node recorded `Failed` is one whose own
executor failed; every node transitively depending on a failed node ends
`Skipped` and its executor is never invoked; and every node whose own
executor succeeds and that does not transitively depend on any failed
node ends `Succeeded`. -/
theorem C4_failure_containment (nodes : List NodeT) (edges : List EdgeT)
    (exec : String → Except String String) (plan : List (List String))
    (hnd : (nodes.map NodeT.id).Nodup)
    (hwf : ∀ e ∈ edges, e.source ∈ nodes.map NodeT.id ∧ e.target ∈ nodes.map NodeT.id)
    (hplan : generateExecutionPlan nodes edges = .ok plan) :
    (∀ q e, stateOf (executeFlow edges exec plan).states q = some (.failed e) →
      exec q = .error e) ∧
    (∀ n e q, stateOf (executeFlow edges exec plan).states n = some (.failed e) →
      Relation.TransGen (edgeRel edges) n q →
      stateOf (executeFlow edges exec plan).states q = some .skipped ∧
        q ∉ (executeFlow edges exec plan).invoked) ∧
    (∀ q v, q ∈ nodes.map NodeT.id →
      (∀ n e, stateOf (executeFlow edges exec plan).states n = some (.failed e) →
        ¬ Relation.TransGen (edgeRel edges) n q) →
      exec q = .ok v →
      stateOf (executeFlow edges exec plan).states q = some (.succeeded v)) := by
  have hstates : (executeFlow edges exec plan).states =
      runStates edges exec plan.flatten [] :=
    runFlow_states edges exec plan.flatten ⟨[], [], []⟩
  have hperm := genPlan_flatten_perm hplan
  have hordnd : plan.flatten.Nodup := hperm.nodup_iff.mpr hnd
  have hEB := genPlan_edgeBefore hwf hplan
  have horder : ∀ e ∈ edges, e.target ∈ plan.flatten :=
    fun e he => hperm.mem_iff.mpr (hwf e he).2
  have hkeysnd :
      ((runStates edges exec plan.flatten ([] : List (String × NodeState))).map
        Prod.fst).Nodup := by
    rw [runStates_keys]
    simpa using hordnd
  refine ⟨?_, ?_, ?_⟩
  · intro q e h
    rw [hstates] at h
    exact run_failed_exec edges exec _ hordnd h
  · intro n e q hn htg
    rw [hstates] at hn ⊢
    have hskip := run_fail_propagates edges exec _ hordnd horder hn htg
    refine ⟨hskip, ?_⟩
    rw [executeFlow_invoked, hstates]
    intro hmem
    rw [List.mem_filterMap] at hmem
    obtain ⟨p, hp, hpq⟩ := hmem
    rcases p with ⟨q', st⟩
    have hfacts : q' = q ∧ st ≠ NodeState.skipped := by
      cases st with
      | succeeded w =>
          simp [toInvoked] at hpq
          exact ⟨hpq, by intro hcon; cases hcon⟩
      | failed e0 =>
          simp [toInvoked] at hpq
          exact ⟨hpq, by intro hcon; cases hcon⟩
      | skipped => simp [toInvoked] at hpq
    have hso := stateOf_of_mem_nodup hkeysnd (hfacts.1 ▸ hp)
    rw [hskip] at hso
    injection hso with hso
    exact hfacts.2 hso.symm
  · intro q v hq hnofail hexec
    rw [hstates]
    rw [hstates] at hnofail
    exact run_success edges exec _ hordnd hEB (hperm.mem_iff.mpr hq) hnofail hexec

/-- Witness for the amended C4 on the concrete graph `a → b` with both
executors failing: hypotheses discharged at a concrete input. -/
theorem C4_failure_containment_witness :
    (([nodeA, nodeB].map NodeT.id).Nodup) ∧
    (∀ e ∈ [edgeAB], e.source ∈ [nodeA, nodeB].map NodeT.id ∧
      e.target ∈ [nodeA, nodeB].map NodeT.id) ∧
    generateExecutionPlan [nodeA, nodeB] [edgeAB] = .ok [["a"], ["b"]] ∧
    ((∀ q e, stateOf (executeFlow [edgeAB] execBoom [["a"], ["b"]]).states q
        = some (.failed e) → execBoom q = .error e) ∧
    (∀ n e q, stateOf (executeFlow [edgeAB] execBoom [["a"], ["b"]]).states n
        = some (.failed e) →
      Relation.TransGen (edgeRel [edgeAB]) n q →
      stateOf (executeFlow [edgeAB] execBoom [["a"], ["b"]]).states q = some .skipped ∧
        q ∉ (executeFlow [edgeAB] execBoom [["a"], ["b"]]).invoked) ∧
    (∀ q v, q ∈ [nodeA, nodeB].map NodeT.id →
      (∀ n e, stateOf (executeFlow [edgeAB] execBoom [["a"], ["b"]]).states n
          = some (.failed e) →
        ¬ Relation.TransGen (edgeRel [edgeAB]) n q) →
      execBoom q = .ok v →
      stateOf (executeFlow [edgeAB] execBoom [["a"], ["b"]]).states q
        = some (.succeeded v))) :=
  ⟨by decide, by decide, rfl,
    C4_failure_containment [nodeA, nodeB] [edgeAB] execBoom [["a"], ["b"]]
      (by decide) (by decide) rfl⟩

/-- C5: the run's terminal outcome is `Completed` precisely when every
node of the run state reached `Succeeded`; otherwise it is `Failed`
carrying the id and error of the first failing node (in execution
order) as the primary cause. -/
theorem C5_terminal_outcome (nodes : List NodeT) (edges : List EdgeT)
    (exec : String → Except String String) (plan : List (List String))
    (hnd : (nodes.map NodeT.id).Nodup)
    (hwf : ∀ e ∈ edges, e.source ∈ nodes.map NodeT.id ∧ e.target ∈ nodes.map NodeT.id)
    (hplan : generateExecutionPlan nodes edges = .ok plan) :
    (runOutcome (executeFlow edges exec plan).states = .completed ↔
      ∀ p ∈ (executeFlow edges exec plan).states, ∃ v, p.2 = NodeState.succeeded v) ∧
    (∀ n e, runOutcome (executeFlow edges exec plan).states = .failedAt n e →
      ∃ s1 s2, (executeFlow edges exec plan).states
          = s1 ++ (n, NodeState.failed e) :: s2 ∧
        ∀ p ∈ s1, ∀ e', p.2 ≠ NodeState.failed e') := by
  have hstates : (executeFlow edges exec plan).states =
      runStates edges exec plan.flatten [] :=
    runFlow_states edges exec plan.flatten ⟨[], [], []⟩
  have hperm := genPlan_flatten_perm hplan
  have hordnd : plan.flatten.Nodup := hperm.nodup_iff.mpr hnd
  have hEB := genPlan_edgeBefore hwf hplan
  constructor
  · constructor
    · intro hc p hp
      have hnone : firstFailure (executeFlow edges exec plan).states = none := by
        unfold runOutcome at hc
        rcases hff : firstFailure (executeFlow edges exec plan).states with _ | pr
        · rfl
        · rw [hff] at hc
          rcases pr with ⟨n, e⟩
          simp at hc
      rw [firstFailure_eq_none_iff] at hnone
      have hnofail : ∀ q e,
          stateOf (runStates edges exec plan.flatten []) q ≠ some (.failed e) := by
        intro q e hqe
        have hmem := mem_of_stateOf hqe
        rw [← hstates] at hmem
        exact hnone (q, .failed e) hmem e rfl
      have hp' : p ∈ runStates edges exec plan.flatten
          ([] : List (String × NodeState)) := by
        rw [← hstates]
        exact hp
      exact run_no_fail_all_succeeded edges exec _ hordnd hEB hnofail p hp'
    · intro hall
      unfold runOutcome
      rcases hff : firstFailure (executeFlow edges exec plan).states with _ | pr
      · rfl
      · exfalso
        obtain ⟨l1, a, l2, heq, hfa, -⟩ := findSome?_eq_some_split _ _ _ hff
        have hamem : a ∈ (executeFlow edges exec plan).states := by
          rw [heq]
          exact List.mem_append_right _ (List.mem_cons_self _ _)
        obtain ⟨v, hv⟩ := hall a hamem
        rw [hv] at hfa
        simp at hfa
  · intro n e hout
    unfold runOutcome at hout
    rcases hff : firstFailure (executeFlow edges exec plan).states with _ | pr
    · rw [hff] at hout
      simp at hout
    · rw [hff] at hout
      rcases pr with ⟨n', e'⟩
      have hne : n' = n ∧ e' = e := by
        simp at hout
        exact hout
      obtain ⟨rfl, rfl⟩ := hne
      obtain ⟨l1, a, l2, heq, hfa, hnone⟩ := findSome?_eq_some_split _ _ _ hff
      rcases a with ⟨q, st⟩
      cases st with
      | succeeded w => simp at hfa
      | skipped => simp at hfa
      | failed e0 =>
          have hqe : q = n' ∧ e0 = e' := by
            simp at hfa
            exact hfa
          obtain ⟨rfl, rfl⟩ := hqe
          refine ⟨l1, l2, heq, ?_⟩
          intro p hp e'' hpe
          have hnp := hnone p hp
          rw [hpe] at hnp
          simp at hnp

/-- Witness for C5 on a concrete all-succeeding single-node run. -/
theorem C5_terminal_outcome_witness :
    (([nodeA].map NodeT.id).Nodup) ∧
    (∀ e ∈ ([] : List EdgeT), e.source ∈ [nodeA].map NodeT.id ∧
      e.target ∈ [nodeA].map NodeT.id) ∧
    generateExecutionPlan [nodeA] [] = .ok [["a"]] ∧
    ((runOutcome (executeFlow [] execOk [["a"]]).states = .completed ↔
      ∀ p ∈ (executeFlow [] execOk [["a"]]).states,
        ∃ v, p.2 = NodeState.succeeded v) ∧
    (∀ n e, runOutcome (executeFlow [] execOk [["a"]]).states = .failedAt n e →
      ∃ s1 s2, (executeFlow [] execOk [["a"]]).states
          = s1 ++ (n, NodeState.failed e) :: s2 ∧
        ∀ p ∈ s1, ∀ e', p.2 ≠ NodeState.failed e')) :=
  ⟨by decide, by decide, rfl,
    C5_terminal_outcome [nodeA] [] execOk [["a"]] (by decide) (by decide) rfl⟩

/-- C7: overlaying runtime inputs builds a fresh effective snapshot —
one output node per input node; nodes without a runtime-input entry are
passed through unchanged; nodes with an entry keep their id, type and
label and receive a config equal to the old config with
`inputText`/`imageData` merged in according to the node type, all other
config keys unchanged. The construction is a pure function of the
original array, which is left untouched. -/
theorem C7_runtime_input_overlay (nodes : List NodeT) (ist : List (String × JSValue)) :
    (nodesWithInputs nodes ist).length = nodes.length ∧
    (∀ i, (nodesWithInputs nodes ist).get? i = (nodes.get? i).map (overlayNode ist)) ∧
    (∀ node, jsLookup ist node.id = none → overlayNode ist node = node) ∧
    (∀ node v, jsLookup ist node.id = some v →
      (overlayNode ist node).id = node.id ∧
      (overlayNode ist node).type = node.type ∧
      (overlayNode ist node).data.label = node.data.label ∧
      (node.type = "textInputNode" →
        jsLookup (overlayNode ist node).data.config "inputText" = some v ∧
        ∀ k, k ≠ "inputText" →
          jsLookup (overlayNode ist node).data.config k = jsLookup node.data.config k) ∧
      (node.type = "imageInputNode" →
        jsLookup (overlayNode ist node).data.config "imageData" = some v ∧
        ∀ k, k ≠ "imageData" →
          jsLookup (overlayNode ist node).data.config k = jsLookup node.data.config k) ∧
      (node.type ≠ "textInputNode" → node.type ≠ "imageInputNode" →
        (overlayNode ist node).data.config = node.data.config)) := by
  refine ⟨by simp [nodesWithInputs], by intro i; simp [nodesWithInputs], ?_, ?_⟩
  · intro node h
    unfold overlayNode
    rw [h]
  · intro node v hv
    have hoverlay : overlayNode ist node =
        { node with data := { node.data with config :=
            (if node.type == "imageInputNode"
              then setKey (if node.type == "textInputNode"
                  then setKey node.data.config "inputText" v else node.data.config)
                "imageData" v
              else (if node.type == "textInputNode"
                  then setKey node.data.config "inputText" v else node.data.config)) } } := by
      unfold overlayNode
      rw [hv]
    refine ⟨by rw [hoverlay], by rw [hoverlay], by rw [hoverlay], ?_, ?_, ?_⟩
    · intro ht
      have hbt : (node.type == "textInputNode") = true := by rw [ht]; decide
      have hbi : (node.type == "imageInputNode") = false := by rw [ht]; decide
      have hcfg : (overlayNode ist node).data.config
          = setKey node.data.config "inputText" v := by
        rw [hoverlay]
        simp [hbt, hbi]
      rw [hcfg]
      exact ⟨jsLookup_setKey_self _ _ _, fun k hk => jsLookup_setKey_other _ _ _ _ hk⟩
    · intro ht
      have hbt : (node.type == "textInputNode") = false := by rw [ht]; decide
      have hbi : (node.type == "imageInputNode") = true := by rw [ht]; decide
      have hcfg : (overlayNode ist node).data.config
          = setKey node.data.config "imageData" v := by
        rw [hoverlay]
        simp [hbt, hbi]
      rw [hcfg]
      exact ⟨jsLookup_setKey_self _ _ _, fun k hk => jsLookup_setKey_other _ _ _ _ hk⟩
    · intro ht hi
      have hbt : (node.type == "textInputNode") = false := by
        rw [Bool.eq_false_iff, Ne, beq_iff_eq]
        exact ht
      have hbi : (node.type == "imageInputNode") = false := by
        rw [Bool.eq_false_iff, Ne, beq_iff_eq]
        exact hi
      rw [hoverlay]
      simp [hbt, hbi]

/-- Witness for C7 at a concrete text-input node and input state. -/
theorem C7_runtime_input_overlay_witness :
    jsLookup [("n1", JSValue.vStr "hello")] "n1" = some (JSValue.vStr "hello") ∧
    jsLookup (overlayNode [("n1", JSValue.vStr "hello")]
        ⟨"n1", "textInputNode", ⟨some "L", [("placeholder", JSValue.vStr "p")]⟩⟩).data.config
      "inputText" = some (JSValue.vStr "hello") ∧
    overlayNode [("n1", JSValue.vStr "hello")] nodeA = nodeA := by
  refine ⟨rfl, ?_, ?_⟩
  · exact (((C7_runtime_input_overlay
      [⟨"n1", "textInputNode", ⟨some "L", [("placeholder", JSValue.vStr "p")]⟩⟩]
      [("n1", JSValue.vStr "hello")]).2.2.2
        ⟨"n1", "textInputNode", ⟨some "L", [("placeholder", JSValue.vStr "p")]⟩⟩
        (JSValue.vStr "hello") rfl).2.2.2.1 rfl).1
  · exact (C7_runtime_input_overlay [nodeA] [("n1", JSValue.vStr "hello")]).2.2.1
      nodeA rfl

/-- C10: `getConfig` hands out a fresh copy of the stored configuration;
mutating the returned object changes neither the client's stored
configuration nor the value any later `getConfig` call reads. -/
theorem C10_getConfig_returns_copy (h : ConfigHeap) (c : OllamaClient)
    (cfg : OpenAIConfig) (hwfh : HeapWF h)
    (hread : heapRead h c.configRef = some cfg) :
    ∃ r h', getConfig h c = some (r, h') ∧
      ∀ v', heapRead (heapWrite h' r v') c.configRef = some cfg ∧
        ∃ r₂ h₂, getConfig (heapWrite h' r v') c = some (r₂, h₂) ∧
          heapRead h₂ r₂ = some cfg := by
  have hlt : c.configRef < h.next := by
    unfold heapRead at hread
    rcases hf : h.cells.find? (fun p => p.1 == c.configRef) with _ | p
    · rw [hf] at hread; cases hread
    · have hm := List.mem_of_find?_eq_some hf
      have hk := List.find?_some hf
      rw [beq_iff_eq] at hk
      have hp := hwfh p hm
      rw [hk] at hp
      exact hp
  refine ⟨h.next, ⟨(h.next, cfg) :: h.cells, h.next + 1⟩, ?_, ?_⟩
  · unfold getConfig
    rw [hread]
    rfl
  · intro v'
    have hmapfix : (((h.next, cfg) :: h.cells).map
        (fun cell => if cell.1 == h.next then (h.next, v') else cell))
        = (h.next, v') :: h.cells := by
      rw [List.map_cons]
      congr 1
      · simp
      · have hid : ∀ cell ∈ h.cells,
            (if cell.1 == h.next then (h.next, v') else cell) = cell := by
          intro cell hc
          rw [if_neg]
          intro hb
          rw [beq_iff_eq] at hb
          exact absurd (hb ▸ hwfh cell hc) (Nat.lt_irrefl _)
        calc h.cells.map (fun cell => if cell.1 == h.next then (h.next, v') else cell)
            = h.cells.map id := List.map_congr_left hid
          _ = h.cells := List.map_id h.cells
    have hwritten : heapWrite ⟨(h.next, cfg) :: h.cells, h.next + 1⟩ h.next v'
        = ⟨(h.next, v') :: h.cells, h.next + 1⟩ := by
      unfold heapWrite
      rw [hmapfix]
    have hreadw : heapRead (heapWrite ⟨(h.next, cfg) :: h.cells, h.next + 1⟩ h.next v')
        c.configRef = some cfg := by
      rw [hwritten]
      unfold heapRead
      rw [List.find?_cons]
      have hne : (((h.next, v') : Nat × OpenAIConfig).1 == c.configRef) = false := by
        simp
        omega
      rw [hne]
      exact hread
    refine ⟨hreadw, h.next + 1,
      ⟨(h.next + 1, cfg) :: (h.next, v') :: h.cells, h.next + 2⟩, ?_, ?_⟩
    · unfold getConfig
      rw [hreadw, hwritten]
      rfl
    · unfold heapRead
      rw [List.find?_cons]
      simp

/-- Witness for C10 on a concrete freshly constructed client. -/
theorem C10_getConfig_returns_copy_witness :
    HeapWF ⟨[(0, ⟨"", "http://u", "ollama"⟩)], 1⟩ ∧
    heapRead ⟨[(0, ⟨"", "http://u", "ollama"⟩)], 1⟩ (OllamaClient.mk 0).configRef
      = some ⟨"", "http://u", "ollama"⟩ ∧
    (∃ r h', getConfig ⟨[(0, ⟨"", "http://u", "ollama"⟩)], 1⟩ (OllamaClient.mk 0)
        = some (r, h') ∧
      ∀ v', heapRead (heapWrite h' r v') (OllamaClient.mk 0).configRef
          = some ⟨"", "http://u", "ollama"⟩ ∧
        ∃ r₂ h₂, getConfig (heapWrite h' r v') (OllamaClient.mk 0) = some (r₂, h₂) ∧
          heapRead h₂ r₂ = some ⟨"", "http://u", "ollama"⟩) :=
  ⟨by intro p hp; simp at hp; subst hp; decide, rfl,
    C10_getConfig_returns_copy ⟨[(0, ⟨"", "http://u", "ollama"⟩)], 1⟩
      (OllamaClient.mk 0) ⟨"", "http://u", "ollama"⟩
      (by intro p hp; simp at hp; subst hp; decide) rfl⟩
